import Mathlib

/-!
Verification of `sage/modules/module_with_basis_morphism.py` (triangular morphisms).

Shallow embedding of the triangular-module-morphism subsystem of
`src/sage/modules/module_with_basis_morphism.py`.

Modelling choices:

* An element of a free module with basis indexed by `ι` over the base ring `R`
  is represented by its canonical form: the association list of
  (index, coefficient) pairs with nonzero coefficients, kept strictly sorted
  with decreasing indices (this is the canonical dictionary representation of
  `CombinatorialFreeModule` elements; `leading_item` is the head,
  `trailing_item` the last entry).
* The base ring is a `Field` in Lean; the category test
  `base_ring() in Fields` performed by `coreduced` / `cokernel_basis_indices`
  is embedded as the Boolean field `baseIsField` of the morphism record,
  since the code consults the category system, not the arithmetic.
  (The exact divisions `c / s[j]` performed on the non-unitriangular path are
  total over a field, faithful to the "field or unitriangular" precondition;
  the unitriangular path performs no division at all.)
* The `cmp` keyword (a custom comparison on the codomain index set) is
  modelled by genericity over the linear order of `ι`: a morphism with a
  custom `cmp` is a morphism over `ι` equipped with that order.
* The `while` loops of `preimage` and `coreduced` are embedded with explicit
  fuel; running out of fuel (`MorphErr.outOfFuel`) models divergence.
* Python exceptions are embedded as `Except` errors (`MorphErr`).
-/

set_option linter.unusedSectionVars false

namespace MWB

variable {ι R : Type} [LinearOrder ι] [Field R] [DecidableEq R]

/-- Strictly decreasing indices: the list invariant of a canonical element
(the representation used by `leading_item`/`trailing_item`). -/
abbrev Sorted (l : List (ι × R)) : Prop := l.Pairwise fun p q => q.1 < p.1

/-- Canonical form: strictly decreasing indices and nonzero coefficients,
as in the monomial dictionary of a `CombinatorialFreeModule` element. -/
abbrev Canon (l : List (ι × R)) : Prop := Sorted l ∧ ∀ p ∈ l, p.2 ≠ 0

/-- Coefficient lookup `x[i]` on an element. -/
def coeff : List (ι × R) → ι → R
  | [], _ => 0
  | (j, c) :: l, i => if i = j then c else coeff l i

/-- The single-term element `c·B[i]`, i.e. `F.term(i, c)` (zero if `c = 0`). -/
def single (i : ι) (c : R) : List (ι × R) :=
  if c = 0 then [] else [(i, c)]

/-- Insert a term with nonzero coefficient `a` into a canonical list,
combining coefficients at an existing index. -/
def insertCoeff (i : ι) (a : R) : List (ι × R) → List (ι × R)
  | [] => [(i, a)]
  | (j, b) :: m =>
    if j < i then (i, a) :: (j, b) :: m
    else if i < j then (j, b) :: insertCoeff i a m
    else if a + b = 0 then m else (i, a + b) :: m

/-- Addition of elements (the coefficientwise sum, kept canonical). -/
def addL (l m : List (ι × R)) : List (ι × R) :=
  l.foldr (fun p acc => if p.2 = 0 then acc else insertCoeff p.1 p.2 acc) m

/-- Scalar multiple `c·x` (`_lmul_`), kept canonical. -/
def smulL (c : R) (l : List (ι × R)) : List (ι × R) :=
  (l.map fun p => (p.1, c * p.2)).filter fun p => decide (p.2 ≠ 0)

/-- Subtraction `x - y` of elements. -/
def subL (l m : List (ι × R)) : List (ι × R) :=
  addL l (smulL (-1) m)

/-- Triangularity convention (`triangular="upper"` / `"lower"`): selects
whether the dominant item is the leading or the trailing term. -/
inductive Tri where
  | upper : Tri
  | lower : Tri
deriving DecidableEq

/-- Embedding of `self._dominant_item`: `leading_item` (head of the canonical list,
maximal index) for the upper convention, `trailing_item` (last entry,
minimal index) for the lower convention. -/
def dominantItem : Tri → List (ι × R) → Option (ι × R)
  | Tri.upper, l => l.head?
  | Tri.lower, l => l.getLast?

/-- Strict dominance relation induced by the convention: `DLT t a b` says
index `a` is strictly dominated by index `b` (comes strictly later in the
elimination order). -/
def DLT : Tri → ι → ι → Prop
  | Tri.upper => fun a b => a < b
  | Tri.lower => fun a b => b < a

instance {ε α : Type} [DecidableEq ε] [DecidableEq α] :
    DecidableEq (Except ε α) := fun a b =>
  match a, b with
  | Except.ok x, Except.ok y =>
    if h : x = y then isTrue (h ▸ rfl)
    else isFalse fun hc => h (Except.ok.inj hc)
  | Except.error e, Except.error f =>
    if h : e = f then isTrue (h ▸ rfl)
    else isFalse fun hc => h (Except.error.inj hc)
  | Except.ok _, Except.error _ => isFalse fun hc => Except.noConfusion hc
  | Except.error _, Except.ok _ => isFalse fun hc => Except.noConfusion hc

/-- The `inverse_on_support` strategies of `TriangularModuleMorphism.__init__`
(lines 571-579): the trivial mode (`inverse_on_support=None`, identity on
indices), or a caller-supplied/precomputed partial function (the `"compute"`
mode precomputes a finite table, which is itself such a function). -/
inductive IosMode (ι : Type) where
  | trivialMode : IosMode ι
  | explicitFun : (ι → Option ι) → IosMode ι

/-- Evaluation of `self._inverse_on_support`:
`_inverse_on_support_trivial(i) = i` in the trivial mode. -/
def IosMode.toFun {ι : Type} : IosMode ι → ι → Option ι
  | IosMode.trivialMode, i => some i
  | IosMode.explicitFun f, i => f i

/-- The Python exceptions raised by the morphism operations. -/
inductive MorphErr where
  /-- Python `ValueError: f(=...) must be in the codomain ... to have a preimage` -/
  | notInCodomain : MorphErr
  /-- Python `ValueError: ... is not in the image` -/
  | notInImage : MorphErr
  /-- Python `ValueError: The morphism (=...) is not triangular at ...` -/
  | notTriangularAt : MorphErr
  /-- error raised when the dominant item of a zero element is requested -/
  | dominantOfZero : MorphErr
  /-- Python `NotImplementedError` (unsupported ring / infinite dimension) -/
  | notImplemented : MorphErr
  /-- Python `AssertionError` (the `assert` statements of `coreduced`) -/
  | assertionFailed : MorphErr
  /-- Python `ValueError: Non invertible morphism` -/
  | nonInvertible : MorphErr
  /-- fuel exhaustion: models divergence of the `while` loop -/
  | outOfFuel : MorphErr
deriving DecidableEq

/-- State of a `TriangularModuleMorphism` (by linearity, single argument,
`position = 0`) after `__init__`: the basis map, the triangularity policy,
and descriptions of the domain and codomain needed by the operations.
`domMem`/`codMem` embed basis-index membership of the (co)domain (used by
the containment test `f in G`); `codKeys`/`codFinite` embed
`codomain.basis().keys()` and the `FiniteDimensional` category test used by
`cokernel_basis_indices`; `baseIsField` embeds the `base_ring() in Fields`
category test; `invertible` is the stored `_invertible` flag. -/
structure TriangularModuleMorphism (ι R : Type) where
  on_basis : ι → List (ι × R)
  triangular : Tri
  unitriangular : Bool
  ios : IosMode ι
  invertible : Bool
  domMem : ι → Bool
  domKeys : List ι
  domFinite : Bool
  codMem : ι → Bool
  codKeys : List ι
  codFinite : Bool
  baseIsField : Bool

namespace TriangularModuleMorphism

variable {ι R : Type} [LinearOrder ι] [Field R] [DecidableEq R]

/-- Embedding of `self._inverse_on_support(j)` (lines 571-591). -/
def inverse_on_support (φ : TriangularModuleMorphism ι R) : ι → Option ι :=
  φ.ios.toFun

/-- Embedding of `ModuleMorphismByLinearity.__call__` (lines 316-348), in the
module-with-basis-over-the-same-base-ring case:
`codomain.linear_combination((on_basis(i), c) for (i, c) in x)`,
i.e. the linear extension `x ↦ Σ_{(i,c) ∈ x} c · on_basis(i)`. -/
def applyL (φ : TriangularModuleMorphism ι R) (x : List (ι × R)) :
    List (ι × R) :=
  x.foldr (fun p acc => addL (smulL p.2 (φ.on_basis p.1)) acc) []

/-- One iteration of the `while` loop of `preimage` (lines 838-857):
extract the dominant item `(j, c)` of the remainder, look up
`j_preimage = inverse_on_support(j)` (error `notInImage` when undefined),
check that `on_basis(j_preimage)` is again dominated by `j` (error
`notTriangularAt` otherwise), rescale by `c / s[j]` unless unitriangular,
then update remainder and output. -/
def preimageStep (φ : TriangularModuleMorphism ι R)
    (remainder out : List (ι × R)) :
    Except MorphErr (List (ι × R) × List (ι × R)) :=
  match dominantItem φ.triangular remainder with
  | none => Except.error MorphErr.dominantOfZero
  | some (j, c) =>
    match φ.inverse_on_support j with
    | none => Except.error MorphErr.notInImage
    | some i =>
      let s := φ.on_basis i
      match dominantItem φ.triangular s with
      | none => Except.error MorphErr.dominantOfZero
      | some (j', _) =>
        if j = j' then
          let c2 := if φ.unitriangular then c else c / coeff s j
          Except.ok (subL remainder (smulL c2 s), addL out (single i c2))
        else Except.error MorphErr.notTriangularAt

/-- The `while not remainder.is_zero()` loop of `preimage`, with fuel. -/
def preimageLoop (φ : TriangularModuleMorphism ι R) :
    Nat → List (ι × R) → List (ι × R) → Except MorphErr (List (ι × R))
  | 0, remainder, out =>
    if remainder = [] then Except.ok out else Except.error MorphErr.outOfFuel
  | n + 1, remainder, out =>
    if remainder = [] then Except.ok out
    else
      match preimageStep φ remainder out with
      | Except.error e => Except.error e
      | Except.ok (r', out') => preimageLoop φ n r' out'

/-- Embedding of `TriangularModuleMorphism.preimage` (lines 760-857): after the
containment check `if not f in G` (error `notInCodomain`), run the
triangular elimination loop starting from `remainder = f`, `out = zero`. -/
def preimage (φ : TriangularModuleMorphism ι R) (fuel : Nat)
    (f : List (ι × R)) : Except MorphErr (List (ι × R)) :=
  if f.all fun p => φ.codMem p.1 then preimageLoop φ fuel f []
  else Except.error MorphErr.notInCodomain

/-- One iteration of the `while` loop of `coreduced` (lines 938-951): like
`preimageStep`, but when `inverse_on_support(j)` is undefined the dominant
term is moved from the remainder to the result instead of failing, and the
dominant-index consistency check is an `assert`. -/
def coreducedStep (φ : TriangularModuleMorphism ι R)
    (remainder result : List (ι × R)) :
    Except MorphErr (List (ι × R) × List (ι × R)) :=
  match dominantItem φ.triangular remainder with
  | none => Except.error MorphErr.dominantOfZero
  | some (j, c) =>
    match φ.inverse_on_support j with
    | none =>
      Except.ok (subL remainder (single j c), addL result (single j c))
    | some i =>
      let s := φ.on_basis i
      match dominantItem φ.triangular s with
      | none => Except.error MorphErr.dominantOfZero
      | some (j', _) =>
        if j = j' then
          let c2 := if φ.unitriangular then c else c / coeff s j
          Except.ok (subL remainder (smulL c2 s), result)
        else Except.error MorphErr.assertionFailed

/-- The `while not remainder.is_zero()` loop of `coreduced`, with fuel. -/
def coreducedLoop (φ : TriangularModuleMorphism ι R) :
    Nat → List (ι × R) → List (ι × R) → Except MorphErr (List (ι × R))
  | 0, remainder, result =>
    if remainder = [] then Except.ok result
    else Except.error MorphErr.outOfFuel
  | n + 1, remainder, result =>
    if remainder = [] then Except.ok result
    else
      match coreducedStep φ remainder result with
      | Except.error e => Except.error e
      | Except.ok (r', res') => coreducedLoop φ n r' res'

/-- Embedding of `TriangularModuleMorphism.coreduced` (lines 859-951): raise
`NotImplementedError` when the base ring is not a field and the morphism is
not unitriangular; `assert y in G`; then run the elimination loop that
retains the dominant terms with no index preimage. -/
def coreduced (φ : TriangularModuleMorphism ι R) (fuel : Nat)
    (y : List (ι × R)) : Except MorphErr (List (ι × R)) :=
  if !φ.baseIsField && !φ.unitriangular then
    Except.error MorphErr.notImplemented
  else if y.all fun p => φ.codMem p.1 then coreducedLoop φ fuel y []
  else Except.error MorphErr.assertionFailed

/-- Embedding of `TriangularModuleMorphism.cokernel_basis_indices` (lines 954-1006):
raise `NotImplementedError` when the base ring is not a field and the
morphism is not unitriangular, or when the codomain is not finite
dimensional; otherwise list the codomain basis indices with no
`inverse_on_support` preimage. -/
def cokernel_basis_indices (φ : TriangularModuleMorphism ι R) :
    Except MorphErr (List ι) :=
  if !φ.baseIsField && !φ.unitriangular then
    Except.error MorphErr.notImplemented
  else if !φ.codFinite then Except.error MorphErr.notImplemented
  else Except.ok (φ.codKeys.filter fun i => (φ.inverse_on_support i).isNone)

/-- The function `retract_dom` defined inside `section` (lines 725-726), as
written in the source: its body evaluates
`self._dominant_item(self._on_basis(i))[0]` but has no `return` statement,
so, as a Python function, it returns `None` on every input. -/
def retractDomCode (φ : TriangularModuleMorphism ι R) : ι → Option ι :=
  fun _ => none

/-- The retraction that the documentation and the spec intend `retract_dom`
to compute: the dominant index of `on_basis(i)` (the value the body of
`retract_dom` computes and then drops). -/
def retractDomIntended (φ : TriangularModuleMorphism ι R) : ι → Option ι :=
  fun i => (dominantItem φ.triangular (φ.on_basis i)).map Prod.fst

/-- The new triangular morphism built by `section` (lines 692-739) in the
invertible case (`section` is a reserved word in Lean, hence `sectionMap`):
domain and codomain swapped, `on_basis = _invert_on_basis`
(`preimage` of the codomain monomial, lines 744-758; its lazy evaluation is
modelled with fuel, returning zero in the error case), triangularity data
carried over, and `inverse_on_support = retract_dom` — the trivial mode when
the original used the trivial mode (`retract_dom = None`), otherwise the
`retract_dom` function defined at lines 725-726.  The `_inverse`
back-reference used for caching is not modelled. -/
def sectionMap (φ : TriangularModuleMorphism ι R) (fuel : Nat) :
    TriangularModuleMorphism ι R where
  on_basis := fun i =>
    match preimage φ fuel (single i 1) with
    | Except.ok v => v
    | Except.error _ => []
  triangular := φ.triangular
  unitriangular := φ.unitriangular
  ios :=
    match φ.ios with
    | IosMode.trivialMode => IosMode.trivialMode
    | IosMode.explicitFun _ => IosMode.explicitFun (retractDomCode φ)
  invertible := φ.invertible
  domMem := φ.codMem
  domKeys := φ.codKeys
  domFinite := φ.codFinite
  codMem := φ.domMem
  codKeys := φ.domKeys
  codFinite := φ.domFinite
  baseIsField := φ.baseIsField

/-- Embedding of `TriangularModuleMorphism.__invert__` (lines 658-690): raise
`ValueError: Non invertible morphism` unless `_invertible`, else return
`section()` (which, for an invertible morphism, is the triangular
`sectionMap`). -/
def invertMorphism (φ : TriangularModuleMorphism ι R) (fuel : Nat) :
    Except MorphErr (TriangularModuleMorphism ι R) :=
  if φ.invertible then Except.ok (sectionMap φ fuel)
  else Except.error MorphErr.nonInvertible

end TriangularModuleMorphism

namespace TriangularModuleMorphism

variable {ι R : Type} [LinearOrder ι] [Field R] [DecidableEq R]

/-- The triangularity contract of the class (docstring assumptions, lines
381-392, and `_test_triangular`, lines 592-640): the image of every basis
element is a nonzero canonical element whose dominant index `j` satisfies
`inverse_on_support(j) = i`, and, when unitriangular, whose dominant
coefficient is `1`. -/
structure IsTriangular (φ : TriangularModuleMorphism ι R) : Prop where
  canon_on_basis : ∀ i, Canon (φ.on_basis i)
  ne_nil_on_basis : ∀ i, φ.on_basis i ≠ []
  inv_dominant : ∀ i j c,
    dominantItem φ.triangular (φ.on_basis i) = some (j, c) →
    φ.inverse_on_support j = some i
  unit_dominant : φ.unitriangular = true → ∀ i j c,
    dominantItem φ.triangular (φ.on_basis i) = some (j, c) → c = 1

/-- The dominant item of `on_basis i` (with an irrelevant default for the
`Option`; under `IsTriangular` the dominant item always exists). -/
def leadPair (φ : TriangularModuleMorphism ι R) (i : ι) : ι × R :=
  (dominantItem φ.triangular (φ.on_basis i)).getD (i, 0)

/-- A triangular morphism over the locally finite order `ℤ`:
`on_basis i = B[i] - B[i-1]`, upper unitriangular, trivial
`inverse_on_support`.  It satisfies the triangularity invariant, yet its
`preimage` elimination loop descends forever on `B[0]`. -/
def phiZ : TriangularModuleMorphism ℤ ℚ where
  on_basis := fun i => [(i, 1), (i - 1, -1)]
  triangular := Tri.upper
  unitriangular := true
  ios := IosMode.trivialMode
  invertible := true
  domMem := fun _ => true
  domKeys := []
  domFinite := false
  codMem := fun _ => true
  codKeys := []
  codFinite := false
  baseIsField := true

/-- ℕ-indexed upper-unitriangular morphism used to instantiate the
universally quantified theorems: `on_basis 0 = B[0]`,
`on_basis (n+1) = B[n+1] + 2·B[n]`, trivial `inverse_on_support`. -/
def phiW : TriangularModuleMorphism ℕ ℚ where
  on_basis := fun i =>
    match i with
    | 0 => [(0, 1)]
    | Nat.succ n => [(n + 1, 1), (n, 2)]
  triangular := Tri.upper
  unitriangular := true
  ios := IosMode.trivialMode
  invertible := true
  domMem := fun _ => true
  domKeys := []
  domFinite := false
  codMem := fun _ => true
  codKeys := []
  codFinite := false
  baseIsField := true

/-- The non-surjective shift morphism of the concrete scenario (doctests at
lines 472-481 and 978-984): domain indexed by `{1,2,3}`, codomain by
`{1,...,5}`, `on_basis i = Σ_{j=i+1}^{5} B[j]`, unitriangular lower,
`inverse_on_support(i) = i - 1` for `i ∈ {2,3,4}` and undefined otherwise;
the cokernel doctest takes `ℤ` coefficients, embedded here by the
base-ring category flag. -/
def phi5 : TriangularModuleMorphism ℤ ℚ where
  on_basis := fun i =>
    if i = 1 then [(5, 1), (4, 1), (3, 1), (2, 1)]
    else if i = 2 then [(5, 1), (4, 1), (3, 1)]
    else if i = 3 then [(5, 1), (4, 1)]
    else []
  triangular := Tri.lower
  unitriangular := true
  ios := IosMode.explicitFun fun j =>
    if j = 2 ∨ j = 3 ∨ j = 4 then some (j - 1) else none
  invertible := false
  domMem := fun i => decide (1 ≤ i ∧ i ≤ 3)
  domKeys := [1, 2, 3]
  domFinite := true
  codMem := fun j => decide (1 ≤ j ∧ j ≤ 5)
  codKeys := [1, 2, 3, 4, 5]
  codFinite := true
  baseIsField := false

/-- The permuted-basis invertible morphism of the class documentation
(lines 488-499): `zt(1) = B[3]`, `zt(2) = B[1]`, `zt(3) = B[1] + B[2]`,
upper triangular, with the explicit `inverse_on_support` permutation
`1 ↦ 2, 2 ↦ 3, 3 ↦ 1`; domain and codomain share the index set `{1,2,3}`,
so the morphism is invertible. -/
def phiZt : TriangularModuleMorphism ℤ ℚ where
  on_basis := fun i =>
    if i = 1 then [(3, 1)]
    else if i = 2 then [(1, 1)]
    else if i = 3 then [(2, 1), (1, 1)]
    else []
  triangular := Tri.upper
  unitriangular := false
  ios := IosMode.explicitFun fun j =>
    if j = 1 then some 2
    else if j = 2 then some 3
    else if j = 3 then some 1
    else none
  invertible := true
  domMem := fun i => decide (1 ≤ i ∧ i ≤ 3)
  domKeys := [1, 2, 3]
  domFinite := true
  codMem := fun i => decide (1 ≤ i ∧ i ≤ 3)
  codKeys := [1, 2, 3]
  codFinite := true
  baseIsField := true

end TriangularModuleMorphism

theorem coeff_nil (i : ι) : coeff ([] : List (ι × R)) i = 0 := rfl

theorem coeff_cons (j : ι) (c : R) (l : List (ι × R)) (i : ι) :
    coeff ((j, c) :: l) i = if i = j then c else coeff l i := rfl

theorem coeff_single (i k : ι) (c : R) :
    coeff (single i c) k = if k = i then c else 0 := by
  unfold single
  by_cases hc : c = 0
  · simp [hc, coeff]
  · simp [hc, coeff]

theorem coeff_eq_zero_of_not_mem (l : List (ι × R)) (i : ι)
    (h : i ∉ l.map Prod.fst) : coeff l i = 0 := by
  induction l with
  | nil => rfl
  | cons p l ih =>
    obtain ⟨j, c⟩ := p
    simp only [List.map_cons, List.mem_cons] at h
    push_neg at h
    simp [coeff_cons, h.1, ih h.2]

theorem mem_map_fst_of_coeff_ne_zero {l : List (ι × R)} {i : ι}
    (h : coeff l i ≠ 0) : i ∈ l.map Prod.fst := by
  by_contra hc
  exact h (coeff_eq_zero_of_not_mem l i hc)

theorem sorted_cons_iff {p : ι × R} {l : List (ι × R)} :
    Sorted (p :: l) ↔ (∀ q ∈ l, q.1 < p.1) ∧ Sorted l := by
  exact List.pairwise_cons

theorem coeff_of_sorted_cons {j : ι} {c : R} {l : List (ι × R)}
    (h : Sorted ((j, c) :: l)) : coeff l j = 0 := by
  apply coeff_eq_zero_of_not_mem
  intro hmem
  rcases List.mem_map.mp hmem with ⟨q, hq, hfst⟩
  have := (sorted_cons_iff.mp h).1 q hq
  rw [hfst] at this
  exact lt_irrefl j this

theorem coeff_of_mem {l : List (ι × R)} {i : ι} {c : R}
    (hs : Sorted l) (h : (i, c) ∈ l) : coeff l i = c := by
  induction l with
  | nil => cases h
  | cons p l ih =>
    obtain ⟨j, b⟩ := p
    rcases List.mem_cons.mp h with h1 | h1
    · injection h1 with h2 h3
      simp [coeff_cons, h2, h3]
    · have hlt := (sorted_cons_iff.mp hs).1 (i, c) h1
      have hne : i ≠ j := ne_of_lt hlt
      simp [coeff_cons, hne, ih (sorted_cons_iff.mp hs).2 h1]

theorem coeff_eq_zero_of_forall_lt {l : List (ι × R)} {i : ι}
    (h : ∀ p ∈ l, p.1 < i) : coeff l i = 0 := by
  apply coeff_eq_zero_of_not_mem
  intro hmem
  rcases List.mem_map.mp hmem with ⟨q, hq, hfst⟩
  exact absurd (hfst ▸ h q hq) (lt_irrefl i)

theorem sorted_nodup_fst {l : List (ι × R)} (h : Sorted l) :
    (l.map Prod.fst).Nodup := by
  unfold List.Nodup
  rw [List.pairwise_map]
  exact h.imp fun hlt => ne_of_gt hlt

theorem mem_insertCoeff {i : ι} {a : R} {m : List (ι × R)} :
    ∀ p ∈ insertCoeff i a m, p.1 = i ∨ p ∈ m := by
  induction m with
  | nil => intro p hp; simp [insertCoeff] at hp; simp [hp]
  | cons q m ih =>
    obtain ⟨j, b⟩ := q
    intro p hp
    unfold insertCoeff at hp
    by_cases h1 : j < i
    · simp only [if_pos h1, List.mem_cons] at hp
      rcases hp with rfl | hp
      · exact Or.inl rfl
      · exact Or.inr (List.mem_cons.mpr hp)
    · simp only [if_neg h1] at hp
      by_cases h2 : i < j
      · simp only [if_pos h2, List.mem_cons] at hp
        rcases hp with rfl | hp
        · exact Or.inr (List.mem_cons_self _ _)
        · rcases ih p hp with h3 | h3
          · exact Or.inl h3
          · exact Or.inr (List.mem_cons_of_mem _ h3)
      · simp only [if_neg h2] at hp
        by_cases h3 : a + b = 0
        · simp only [if_pos h3] at hp
          exact Or.inr (List.mem_cons_of_mem _ hp)
        · simp only [if_neg h3, List.mem_cons] at hp
          rcases hp with rfl | hp
          · exact Or.inl rfl
          · exact Or.inr (List.mem_cons_of_mem _ hp)

theorem sorted_insertCoeff {i : ι} {a : R} {m : List (ι × R)}
    (hm : Sorted m) : Sorted (insertCoeff i a m) := by
  induction m with
  | nil => simp [insertCoeff, Sorted]
  | cons q m ih =>
    obtain ⟨j, b⟩ := q
    obtain ⟨hbd, hm'⟩ := sorted_cons_iff.mp hm
    unfold insertCoeff
    by_cases h1 : j < i
    · simp only [if_pos h1]
      refine sorted_cons_iff.mpr ⟨?_, hm⟩
      intro q hq
      rcases List.mem_cons.mp hq with rfl | hq
      · exact h1
      · exact lt_trans (hbd q hq) h1
    · simp only [if_neg h1]
      by_cases h2 : i < j
      · simp only [if_pos h2]
        refine sorted_cons_iff.mpr ⟨?_, ih hm'⟩
        intro q hq
        rcases mem_insertCoeff q hq with h3 | h3
        · exact h3 ▸ h2
        · exact hbd q h3
      · have hij : i = j := le_antisymm (not_lt.mp h1) (not_lt.mp h2)
        simp only [if_neg h2]
        by_cases h3 : a + b = 0
        · simp only [if_pos h3]; exact hm'
        · simp only [if_neg h3]
          refine sorted_cons_iff.mpr ⟨?_, hm'⟩
          intro q hq
          exact hij ▸ hbd q hq

theorem nonzero_insertCoeff {i : ι} {a : R} {m : List (ι × R)}
    (hm : ∀ p ∈ m, p.2 ≠ 0) (ha : a ≠ 0) :
    ∀ p ∈ insertCoeff i a m, p.2 ≠ 0 := by
  induction m with
  | nil => intro p hp; simp [insertCoeff] at hp; simp [hp, ha]
  | cons q m ih =>
    obtain ⟨j, b⟩ := q
    intro p hp
    unfold insertCoeff at hp
    by_cases h1 : j < i
    · simp only [if_pos h1, List.mem_cons] at hp
      rcases hp with rfl | hp
      · exact ha
      · exact hm p (List.mem_cons.mpr hp)
    · simp only [if_neg h1] at hp
      by_cases h2 : i < j
      · simp only [if_pos h2, List.mem_cons] at hp
        rcases hp with rfl | hp
        · exact hm (j, b) (List.mem_cons_self _ _)
        · exact ih (fun q hq => hm q (List.mem_cons_of_mem _ hq)) p hp
      · simp only [if_neg h2] at hp
        by_cases h3 : a + b = 0
        · simp only [if_pos h3] at hp
          exact hm p (List.mem_cons_of_mem _ hp)
        · simp only [if_neg h3, List.mem_cons] at hp
          rcases hp with rfl | hp
          · exact h3
          · exact hm p (List.mem_cons_of_mem _ hp)

theorem coeff_insertCoeff {i : ι} {a : R} {m : List (ι × R)}
    (hm : Sorted m) (k : ι) :
    coeff (insertCoeff i a m) k = coeff m k + (if k = i then a else 0) := by
  induction m with
  | nil => simp [insertCoeff, coeff_cons, coeff_nil]
  | cons q m ih =>
    obtain ⟨j, b⟩ := q
    obtain ⟨hbd, hm'⟩ := sorted_cons_iff.mp hm
    unfold insertCoeff
    by_cases h1 : j < i
    · simp only [if_pos h1]
      by_cases hk : k = i
      · subst hk
        have hne : k ≠ j := ne_of_gt h1
        have : coeff m k = 0 := coeff_eq_zero_of_forall_lt
          (fun p hp => lt_trans (hbd p hp) h1)
        simp [coeff_cons, hne, this]
      · simp [coeff_cons, hk]
    · simp only [if_neg h1]
      by_cases h2 : i < j
      · simp only [if_pos h2]
        by_cases hk : k = j
        · subst hk
          have hki : k ≠ i := ne_of_gt h2
          simp [coeff_cons, hki]
        · simp [coeff_cons, hk, ih hm']
      · have hij : i = j := le_antisymm (not_lt.mp h1) (not_lt.mp h2)
        subst hij
        simp only [if_neg h2]
        by_cases h3 : a + b = 0
        · simp only [if_pos h3]
          by_cases hk : k = i
          · subst hk
            have hz : coeff m k = 0 := coeff_eq_zero_of_forall_lt hbd
            have hba : b + a = 0 := by rw [add_comm]; exact h3
            simp [coeff_cons, hz, hba]
          · simp [coeff_cons, hk]
        · simp only [if_neg h3]
          by_cases hk : k = i
          · subst hk
            simp [coeff_cons, add_comm a b]
          · simp [coeff_cons, hk]

theorem addL_nil_left (m : List (ι × R)) : addL [] m = m := rfl

theorem addL_cons (p : ι × R) (l m : List (ι × R)) :
    addL (p :: l) m =
      if p.2 = 0 then addL l m else insertCoeff p.1 p.2 (addL l m) := rfl

theorem sorted_addL {l m : List (ι × R)} (hm : Sorted m) :
    Sorted (addL l m) := by
  induction l with
  | nil => exact hm
  | cons p l ih =>
    rw [addL_cons]
    by_cases hp : p.2 = 0
    · simp only [if_pos hp]; exact ih
    · simp only [if_neg hp]; exact sorted_insertCoeff ih

theorem mem_addL {l m : List (ι × R)} :
    ∀ p ∈ addL l m, p.1 ∈ l.map Prod.fst ∨ p ∈ m := by
  induction l with
  | nil => intro p hp; exact Or.inr hp
  | cons q l ih =>
    intro p hp
    rw [addL_cons] at hp
    by_cases hq : q.2 = 0
    · simp only [if_pos hq] at hp
      rcases ih p hp with h | h
      · exact Or.inl (by simp [h])
      · exact Or.inr h
    · simp only [if_neg hq] at hp
      rcases mem_insertCoeff p hp with h | h
      · exact Or.inl (by simp [h])
      · rcases ih p h with h2 | h2
        · exact Or.inl (by simp [h2])
        · exact Or.inr h2

theorem nonzero_addL {l m : List (ι × R)} (hm : ∀ p ∈ m, p.2 ≠ 0) :
    ∀ p ∈ addL l m, p.2 ≠ 0 := by
  induction l with
  | nil => exact hm
  | cons q l ih =>
    intro p hp
    rw [addL_cons] at hp
    by_cases hq : q.2 = 0
    · simp only [if_pos hq] at hp; exact ih p hp
    · simp only [if_neg hq] at hp
      exact nonzero_insertCoeff ih hq p hp

theorem canon_addL {l m : List (ι × R)} (hm : Canon m) : Canon (addL l m) :=
  ⟨sorted_addL hm.1, nonzero_addL hm.2⟩

theorem coeff_addL {l m : List (ι × R)} (hl : Sorted l) (hm : Sorted m)
    (k : ι) : coeff (addL l m) k = coeff l k + coeff m k := by
  induction l with
  | nil => simp [addL_nil_left, coeff_nil]
  | cons q l ih =>
    obtain ⟨j, c⟩ := q
    obtain ⟨hbd, hl'⟩ := sorted_cons_iff.mp hl
    rw [addL_cons]
    by_cases hq : c = 0
    · simp only [if_pos hq]
      rw [ih hl']
      by_cases hk : k = j
      · subst hk
        have : coeff l k = 0 := coeff_eq_zero_of_forall_lt hbd
        simp [coeff_cons, this, hq]
      · simp [coeff_cons, hk]
    · simp only [if_neg hq]
      rw [coeff_insertCoeff (sorted_addL hm), ih hl']
      by_cases hk : k = j
      · subst hk
        have : coeff l k = 0 := coeff_eq_zero_of_forall_lt hbd
        simp [coeff_cons, this]
        ring
      · simp [coeff_cons, hk]

theorem smulL_nil (c : R) : smulL c ([] : List (ι × R)) = [] := rfl

theorem smulL_cons (c : R) (j : ι) (b : R) (l : List (ι × R)) :
    smulL c ((j, b) :: l) =
      if c * b = 0 then smulL c l else (j, c * b) :: smulL c l := by
  unfold smulL
  by_cases h : c * b = 0
  · simp [List.filter_cons, h]
  · simp [List.filter_cons, h]

theorem mem_smulL {c : R} {l : List (ι × R)} :
    ∀ p ∈ smulL c l, p.1 ∈ l.map Prod.fst ∧ p.2 ≠ 0 := by
  intro p hp
  unfold smulL at hp
  rcases List.mem_filter.mp hp with ⟨hmem, hdec⟩
  rcases List.mem_map.mp hmem with ⟨q, hq, hpq⟩
  constructor
  · subst hpq; simpa using List.mem_map_of_mem Prod.fst hq
  · simpa using of_decide_eq_true hdec

theorem sorted_smulL {c : R} {l : List (ι × R)} (hl : Sorted l) :
    Sorted (smulL c l) := by
  induction l with
  | nil => simp [smulL_nil, Sorted]
  | cons q l ih =>
    obtain ⟨j, b⟩ := q
    obtain ⟨hbd, hl'⟩ := sorted_cons_iff.mp hl
    rw [smulL_cons]
    by_cases h : c * b = 0
    · simp only [if_pos h]; exact ih hl'
    · simp only [if_neg h]
      refine sorted_cons_iff.mpr ⟨?_, ih hl'⟩
      intro q hq
      rcases List.mem_map.mp (mem_smulL q hq).1 with ⟨q', hq', hfst⟩
      exact hfst ▸ hbd q' hq'

theorem nonzero_smulL {c : R} {l : List (ι × R)} :
    ∀ p ∈ smulL c l, p.2 ≠ 0 := fun p hp => (mem_smulL p hp).2

theorem canon_smulL {c : R} {l : List (ι × R)} (hl : Sorted l) :
    Canon (smulL c l) := ⟨sorted_smulL hl, nonzero_smulL⟩

theorem coeff_smulL {c : R} {l : List (ι × R)} (hl : Sorted l) (k : ι) :
    coeff (smulL c l) k = c * coeff l k := by
  induction l with
  | nil => simp [smulL_nil, coeff_nil]
  | cons q l ih =>
    obtain ⟨j, b⟩ := q
    obtain ⟨hbd, hl'⟩ := sorted_cons_iff.mp hl
    rw [smulL_cons]
    by_cases h : c * b = 0
    · simp only [if_pos h]
      rw [ih hl']
      by_cases hk : k = j
      · subst hk
        have : coeff l k = 0 := coeff_eq_zero_of_forall_lt hbd
        simp [coeff_cons, this, h]
      · simp [coeff_cons, hk]
    · simp only [if_neg h]
      by_cases hk : k = j
      · subst hk; simp [coeff_cons]
      · simp [coeff_cons, hk, ih hl']

theorem coeff_subL {l m : List (ι × R)} (hl : Sorted l) (hm : Sorted m)
    (k : ι) : coeff (subL l m) k = coeff l k - coeff m k := by
  unfold subL
  rw [coeff_addL hl (sorted_smulL hm), coeff_smulL hm]
  ring

theorem canon_subL {l m : List (ι × R)} (hm : Sorted m) :
    Canon (subL l m) := canon_addL (canon_smulL hm)

theorem canon_nil : Canon ([] : List (ι × R)) := by
  constructor
  · exact List.Pairwise.nil
  · intro p hp; cases hp

theorem canon_single (i : ι) (c : R) : Canon (single i c) := by
  unfold single
  by_cases hc : c = 0
  · simp only [if_pos hc]; exact canon_nil
  · simp only [if_neg hc]
    exact ⟨List.pairwise_singleton _ _, by intro p hp; simp at hp; simp [hp, hc]⟩

/-- Canonical representations are unique: two canonical lists with the same
coefficient function are equal. -/
theorem canon_ext {l m : List (ι × R)} (hl : Canon l) (hm : Canon m)
    (h : ∀ k, coeff l k = coeff m k) : l = m := by
  induction l generalizing m with
  | nil =>
    cases m with
    | nil => rfl
    | cons q m' =>
      obtain ⟨j, b⟩ := q
      have hb : coeff ((j, b) :: m') j = b := by simp [coeff_cons]
      have : (0 : R) = b := by rw [← coeff_nil (R := R) j, h j, hb]
      exact absurd this.symm (hm.2 (j, b) (List.mem_cons_self _ _))
  | cons p l' ih =>
    obtain ⟨i, a⟩ := p
    cases m with
    | nil =>
      have ha : coeff ((i, a) :: l') i = a := by simp [coeff_cons]
      have : a = (0 : R) := by rw [← ha, h i, coeff_nil]
      exact absurd this (hl.2 (i, a) (List.mem_cons_self _ _))
    | cons q m' =>
      obtain ⟨j, b⟩ := q
      obtain ⟨hbl, hl'⟩ := sorted_cons_iff.mp hl.1
      obtain ⟨hbm, hm'⟩ := sorted_cons_iff.mp hm.1
      have hij : i = j := by
        by_contra hij
        have h1 : coeff ((j, b) :: m') i ≠ 0 := by
          rw [← h i]; simp [coeff_cons]
          exact hl.2 (i, a) (List.mem_cons_self _ _)
        have h2 : coeff ((i, a) :: l') j ≠ 0 := by
          rw [h j]; simp [coeff_cons]
          exact hm.2 (j, b) (List.mem_cons_self _ _)
        rw [coeff_cons] at h1
        rw [if_neg hij] at h1
        have hmemm := mem_map_fst_of_coeff_ne_zero h1
        rcases List.mem_map.mp hmemm with ⟨q, hq, hfst⟩
        have hilt : i < j := hfst ▸ hbm q hq
        rw [coeff_cons, if_neg (Ne.symm hij)] at h2
        have hmeml := mem_map_fst_of_coeff_ne_zero h2
        rcases List.mem_map.mp hmeml with ⟨q', hq', hfst'⟩
        have hjlt : j < i := hfst' ▸ hbl q' hq'
        exact absurd hilt (not_lt.mpr (le_of_lt hjlt))
      subst hij
      have hab : a = b := by
        have := h i
        simpa [coeff_cons] using this
      subst hab
      have htails : ∀ k, coeff l' k = coeff m' k := by
        intro k
        by_cases hk : k = i
        · subst hk
          rw [coeff_eq_zero_of_forall_lt hbl, coeff_eq_zero_of_forall_lt hbm]
        · have := h k
          rwa [coeff_cons, coeff_cons, if_neg hk, if_neg hk] at this
      have hcl' : Canon l' :=
        ⟨hl', fun p hp => hl.2 p (List.mem_cons_of_mem _ hp)⟩
      have hcm' : Canon m' :=
        ⟨hm', fun p hp => hm.2 p (List.mem_cons_of_mem _ hp)⟩
      rw [ih hcl' hcm' htails]

theorem mem_single {i : ι} {c : R} :
    ∀ p ∈ single i c, p = (i, c) ∧ c ≠ 0 := by
  intro p hp
  unfold single at hp
  by_cases hc : c = 0
  · simp [hc] at hp
  · simp [hc] at hp; exact ⟨hp, hc⟩

theorem dlt_trans {t : Tri} {a b c : ι} (h1 : DLT t a b) (h2 : DLT t b c) :
    DLT t a c := by
  cases t
  · exact lt_trans h1 h2
  · exact lt_trans h2 h1

theorem dlt_irrefl (t : Tri) (a : ι) : ¬ DLT t a a := by
  cases t <;> exact lt_irrefl a

theorem dlt_asymm {t : Tri} {a b : ι} (h : DLT t a b) : ¬ DLT t b a := by
  cases t
  · exact not_lt.mpr (le_of_lt h)
  · exact not_lt.mpr (le_of_lt h)

theorem dlt_total (t : Tri) (a b : ι) : a = b ∨ DLT t a b ∨ DLT t b a := by
  rcases lt_trichotomy a b with h | h | h
  · cases t
    · exact Or.inr (Or.inl h)
    · exact Or.inr (Or.inr h)
  · exact Or.inl h
  · cases t
    · exact Or.inr (Or.inr h)
    · exact Or.inr (Or.inl h)

theorem dominant_mem {t : Tri} {l : List (ι × R)} {p : ι × R}
    (h : dominantItem t l = some p) : p ∈ l := by
  cases t
  · cases l with
    | nil => simp [dominantItem] at h
    | cons q m =>
      simp only [dominantItem, List.head?_cons, Option.some.injEq] at h
      exact h ▸ List.mem_cons_self _ _
  · induction l with
    | nil => simp [dominantItem] at h
    | cons q m ih =>
      cases m with
      | nil =>
        simp only [dominantItem, List.getLast?_singleton, Option.some.injEq] at h
        exact h ▸ List.mem_cons_self _ _
      | cons r m' =>
        simp only [dominantItem, List.getLast?_cons_cons] at h
        exact List.mem_cons_of_mem _ (ih h)

theorem dominant_exists {t : Tri} {l : List (ι × R)} (h : l ≠ []) :
    ∃ p, dominantItem t l = some p := by
  cases t
  · cases l with
    | nil => exact absurd rfl h
    | cons q m => exact ⟨q, rfl⟩
  · induction l with
    | nil => exact absurd rfl h
    | cons q m ih =>
      cases m with
      | nil => exact ⟨q, rfl⟩
      | cons r m' =>
        rcases ih (List.cons_ne_nil r m') with ⟨p, hp⟩
        exact ⟨p, by simpa [dominantItem, List.getLast?_cons_cons] using hp⟩

theorem dominant_ne_nil {t : Tri} {l : List (ι × R)} {p : ι × R}
    (h : dominantItem t l = some p) : l ≠ [] := by
  intro hl
  subst hl
  cases t <;> simp [dominantItem] at h

theorem dominant_top {t : Tri} {l : List (ι × R)} {j : ι} {c : R}
    (hs : Sorted l) (h : dominantItem t l = some (j, c)) :
    ∀ p ∈ l, p.1 = j ∨ DLT t p.1 j := by
  cases t
  · cases l with
    | nil => simp [dominantItem] at h
    | cons q m =>
      simp only [dominantItem, List.head?_cons, Option.some.injEq] at h
      subst h
      intro p hp
      rcases List.mem_cons.mp hp with rfl | hp
      · exact Or.inl rfl
      · exact Or.inr ((sorted_cons_iff.mp hs).1 p hp)
  · induction l with
    | nil => simp [dominantItem] at h
    | cons q m ih =>
      cases m with
      | nil =>
        simp only [dominantItem, List.getLast?_singleton, Option.some.injEq] at h
        subst h
        intro p hp
        rcases List.mem_cons.mp hp with rfl | hp
        · exact Or.inl rfl
        · cases hp
      | cons r m' =>
        simp only [dominantItem, List.getLast?_cons_cons] at h
        intro p hp
        rcases List.mem_cons.mp hp with rfl | hp
        · have hjm : (j, c) ∈ r :: m' :=
            dominant_mem (t := Tri.lower)
              (by simpa [dominantItem] using h)
          exact Or.inr ((sorted_cons_iff.mp hs).1 (j, c) hjm)
        · exact ih (sorted_cons_iff.mp hs).2 h p hp

theorem coeff_ne_zero_of_mem_fst {l : List (ι × R)} {i : ι}
    (hl : Canon l) (h : i ∈ l.map Prod.fst) : coeff l i ≠ 0 := by
  rcases List.mem_map.mp h with ⟨q, hq, hfst⟩
  have : coeff l i = q.2 := by
    subst hfst
    exact coeff_of_mem hl.1 (by simpa using hq)
  rw [this]
  exact hl.2 q hq

/-- Characterization: the dominant item of a canonical element is the pair
`(j, c)` with `c = coeff j ≠ 0` such that every other index of the support
is strictly dominated by `j`. -/
theorem dominant_eq_of {t : Tri} {l : List (ι × R)} {j : ι} {c : R}
    (hl : Canon l) (h1 : coeff l j = c) (h2 : c ≠ 0)
    (h3 : ∀ k, coeff l k ≠ 0 → k = j ∨ DLT t k j) :
    dominantItem t l = some (j, c) := by
  have hne : l ≠ [] := by
    intro h
    subst h
    exact h2 (h1 ▸ rfl)
  rcases dominant_exists (t := t) hne with ⟨⟨j', c'⟩, hd⟩
  have hmem := dominant_mem hd
  have hc' : coeff l j' = c' := coeff_of_mem hl.1 hmem
  have hc'ne : c' ≠ 0 := hl.2 (j', c') hmem
  have hj : j' = j := by
    rcases h3 j' (hc' ▸ hc'ne) with h | h
    · exact h
    · exfalso
      have hjm : j ∈ l.map Prod.fst :=
        mem_map_fst_of_coeff_ne_zero (h1 ▸ h2)
      rcases List.mem_map.mp hjm with ⟨q, hq, hfst⟩
      rcases dominant_top hl.1 hd q hq with h4 | h4
      · have hjj : j' = j := by rw [← h4, hfst]
        rw [hjj] at h
        exact dlt_irrefl t j h
      · exact dlt_asymm h (hfst ▸ h4)
  subst hj
  rw [hd, ← hc', h1]

theorem exists_dominant_max {α : Type} (t : Tri) (g : α → ι) :
    ∀ l : List α, l ≠ [] → ∃ a ∈ l, ∀ b ∈ l, g b = g a ∨ DLT t (g b) (g a) := by
  intro l
  induction l with
  | nil => intro h; exact absurd rfl h
  | cons x l ih =>
    intro _
    cases l with
    | nil =>
      refine ⟨x, List.mem_cons_self _ _, ?_⟩
      intro b hb
      rcases List.mem_cons.mp hb with rfl | hb
      · exact Or.inl rfl
      · cases hb
    | cons y m =>
      rcases ih (List.cons_ne_nil y m) with ⟨a, ha, hmax⟩
      rcases dlt_total t (g x) (g a) with h | h | h
      · refine ⟨a, List.mem_cons_of_mem _ ha, ?_⟩
        intro b hb
        rcases List.mem_cons.mp hb with rfl | hb
        · exact Or.inl h
        · exact hmax b hb
      · refine ⟨a, List.mem_cons_of_mem _ ha, ?_⟩
        intro b hb
        rcases List.mem_cons.mp hb with rfl | hb
        · exact Or.inr h
        · exact hmax b hb
      · refine ⟨x, List.mem_cons_self _ _, ?_⟩
        intro b hb
        rcases List.mem_cons.mp hb with rfl | hb
        · exact Or.inl rfl
        · rcases hmax b hb with h4 | h4
          · exact Or.inr (h4 ▸ h)
          · exact Or.inr (dlt_trans h4 h)

theorem coeff_append_cons {l₁ l₂ : List (ι × R)} {i : ι} {c : R}
    (hs : Sorted (l₁ ++ (i, c) :: l₂)) (k : ι) :
    coeff (l₁ ++ l₂) k =
      coeff (l₁ ++ (i, c) :: l₂) k - (if k = i then c else 0) := by
  induction l₁ with
  | nil =>
    simp only [List.nil_append]
    by_cases hk : k = i
    · subst hk
      have hz : coeff l₂ k = 0 := coeff_of_sorted_cons hs
      simp [coeff_cons, hz]
    · simp [coeff_cons, hk]
  | cons q t ih =>
    obtain ⟨j, b⟩ := q
    simp only [List.cons_append] at hs
    obtain ⟨hbd, hs'⟩ := sorted_cons_iff.mp hs
    by_cases hk : k = j
    · subst hk
      have hki : k ≠ i := by
        have hm : (i, c) ∈ t ++ (i, c) :: l₂ := by simp
        exact ne_of_gt (hbd (i, c) hm)
      simp [coeff_cons, hki]
    · simp only [List.cons_append, coeff_cons, if_neg hk]
      exact ih hs'

theorem length_lt_of_coeff {l l' : List (ι × R)} (hl : Canon l)
    (hl' : Canon l')
    (hsub : ∀ k, coeff l' k ≠ 0 → coeff l k ≠ 0)
    {i : ι} (hi : coeff l i ≠ 0) (hi' : coeff l' i = 0) :
    l'.length < l.length := by
  have hnl := sorted_nodup_fst hl.1
  have hnl' := sorted_nodup_fst hl'.1
  have hcard : (l.map Prod.fst).toFinset.card = l.length := by
    rw [List.toFinset_card_of_nodup hnl, List.length_map]
  have hcard' : (l'.map Prod.fst).toFinset.card = l'.length := by
    rw [List.toFinset_card_of_nodup hnl', List.length_map]
  rw [← hcard, ← hcard']
  apply Finset.card_lt_card
  rw [Finset.ssubset_def]
  constructor
  · intro k hk
    rw [List.mem_toFinset] at hk ⊢
    exact mem_map_fst_of_coeff_ne_zero (hsub k (coeff_ne_zero_of_mem_fst hl' hk))
  · intro hsup
    have hmem : i ∈ (l'.map Prod.fst).toFinset := hsup (by
      rw [List.mem_toFinset]
      exact mem_map_fst_of_coeff_ne_zero hi)
    rw [List.mem_toFinset] at hmem
    exact coeff_ne_zero_of_mem_fst hl' hmem hi'

theorem subL_single_decomp {l₁ l₂ : List (ι × R)} {i : ι} {c : R}
    (hx : Canon (l₁ ++ (i, c) :: l₂)) :
    subL (l₁ ++ (i, c) :: l₂) (single i c) = l₁ ++ l₂ := by
  have hsub : List.Sublist (l₁ ++ l₂) (l₁ ++ (i, c) :: l₂) :=
    (List.sublist_cons_self (i, c) l₂).append_left l₁
  have hcanon12 : Canon (l₁ ++ l₂) :=
    ⟨List.Pairwise.sublist hsub hx.1, fun p hp => hx.2 p (hsub.subset hp)⟩
  apply canon_ext (canon_subL (canon_single i c).1) hcanon12
  intro k
  rw [coeff_subL hx.1 (canon_single i c).1, coeff_single,
    coeff_append_cons hx.1]

theorem exists_ne_zero_of_sum_ne_zero {l : List R} (h : l.sum ≠ 0) :
    ∃ a ∈ l, a ≠ 0 := by
  by_contra hc
  push_neg at hc
  exact h (List.sum_eq_zero hc)

theorem fst_injOn_of_sorted {x : List (ι × R)} (hs : Sorted x)
    {p q : ι × R} (hp : p ∈ x) (hq : q ∈ x) (h : p.1 = q.1) : p = q := by
  have h1 : coeff x p.1 = p.2 := coeff_of_mem hs (by simpa using hp)
  have h2 : coeff x q.1 = q.2 := coeff_of_mem hs (by simpa using hq)
  have : p.2 = q.2 := by rw [← h1, ← h2, h]
  exact Prod.ext h this

theorem fst_ne_of_decomp {l₁ l₂ : List (ι × R)} {p : ι × R}
    (hs : Sorted (l₁ ++ p :: l₂)) :
    (∀ q ∈ l₁, q.1 ≠ p.1) ∧ ∀ q ∈ l₂, q.1 ≠ p.1 := by
  obtain ⟨h1, h2, h3⟩ := List.pairwise_append.mp hs
  constructor
  · intro q hq
    exact ne_of_gt (h3 q hq p (List.mem_cons_self _ _))
  · intro q hq
    exact ne_of_lt ((sorted_cons_iff.mp h2).1 q hq)

theorem canon_append_of_middle {l₁ l₂ : List (ι × R)} {p : ι × R}
    (hx : Canon (l₁ ++ p :: l₂)) : Canon (l₁ ++ l₂) := by
  have hsub : List.Sublist (l₁ ++ l₂) (l₁ ++ p :: l₂) :=
    (List.sublist_cons_self p l₂).append_left l₁
  exact ⟨List.Pairwise.sublist hsub hx.1, fun q hq => hx.2 q (hsub.subset hq)⟩

namespace TriangularModuleMorphism

variable {ι R : Type} [LinearOrder ι] [Field R] [DecidableEq R]

theorem applyL_nil (φ : TriangularModuleMorphism ι R) : applyL φ [] = [] :=
  rfl

theorem applyL_cons (φ : TriangularModuleMorphism ι R) (p : ι × R)
    (x : List (ι × R)) :
    applyL φ (p :: x) = addL (smulL p.2 (φ.on_basis p.1)) (applyL φ x) :=
  rfl

theorem canon_applyL (φ : TriangularModuleMorphism ι R) (x : List (ι × R)) :
    Canon (applyL φ x) := by
  induction x with
  | nil => exact canon_nil
  | cons p x ih => rw [applyL_cons]; exact canon_addL ih

theorem coeff_applyL (φ : TriangularModuleMorphism ι R)
    (hob : ∀ i, Sorted (φ.on_basis i)) (x : List (ι × R)) (k : ι) :
    coeff (applyL φ x) k =
      (x.map fun p => p.2 * coeff (φ.on_basis p.1) k).sum := by
  induction x with
  | nil => simp [applyL_nil, coeff_nil]
  | cons p x ih =>
    rw [applyL_cons,
      coeff_addL (sorted_smulL (hob p.1)) (canon_applyL φ x).1,
      coeff_smulL (hob p.1), ih]
    simp

theorem leadPair_eq {φ : TriangularModuleMorphism ι R}
    (ht : IsTriangular φ) (i : ι) :
    dominantItem φ.triangular (φ.on_basis i) = some (leadPair φ i) := by
  rcases dominant_exists (t := φ.triangular) (ht.ne_nil_on_basis i) with
    ⟨p, hp⟩
  rw [hp]
  unfold leadPair
  rw [hp]
  rfl

theorem leadPair_eq2 {φ : TriangularModuleMorphism ι R}
    (ht : IsTriangular φ) (i : ι) :
    dominantItem φ.triangular (φ.on_basis i) =
      some ((leadPair φ i).1, (leadPair φ i).2) := by
  rw [leadPair_eq ht i]

theorem leadPair_inv {φ : TriangularModuleMorphism ι R}
    (ht : IsTriangular φ) (i : ι) :
    φ.inverse_on_support (leadPair φ i).1 = some i :=
  ht.inv_dominant i (leadPair φ i).1 (leadPair φ i).2 (leadPair_eq ht i)

theorem leadPair_fst_inj {φ : TriangularModuleMorphism ι R}
    (ht : IsTriangular φ) {i i' : ι}
    (h : (leadPair φ i).1 = (leadPair φ i').1) : i = i' := by
  have h1 := leadPair_inv ht i
  have h2 := leadPair_inv ht i'
  rw [h] at h1
  rw [h1] at h2
  exact Option.some.inj h2

theorem leadPair_coeff {φ : TriangularModuleMorphism ι R}
    (ht : IsTriangular φ) (i : ι) :
    coeff (φ.on_basis i) (leadPair φ i).1 = (leadPair φ i).2 :=
  coeff_of_mem (ht.canon_on_basis i).1
    (by simpa using dominant_mem (leadPair_eq ht i))

theorem leadPair_snd_ne_zero {φ : TriangularModuleMorphism ι R}
    (ht : IsTriangular φ) (i : ι) : (leadPair φ i).2 ≠ 0 :=
  (ht.canon_on_basis i).2 (leadPair φ i) (dominant_mem (leadPair_eq ht i))

theorem on_basis_coeff_dominated {φ : TriangularModuleMorphism ι R}
    (ht : IsTriangular φ) (i : ι) {k : ι}
    (h : coeff (φ.on_basis i) k ≠ 0) :
    k = (leadPair φ i).1 ∨ DLT φ.triangular k (leadPair φ i).1 := by
  rcases List.mem_map.mp (mem_map_fst_of_coeff_ne_zero h) with ⟨q, hq, hfst⟩
  rcases dominant_top (ht.canon_on_basis i).1 (leadPair_eq ht i) q hq with
    h1 | h1
  · exact Or.inl (hfst ▸ h1)
  · exact Or.inr (hfst ▸ h1)

/-- The dominant item of `applyL φ x`: if `p` is the entry of `x` whose
image has the dominance-maximal dominant index, then the dominant item of
the image of `x` is that index, with coefficient `p.2` times the dominant
coefficient of `on_basis p.1`.  (The key triangularity fact behind the
elimination loops.) -/
theorem applyL_dominant (φ : TriangularModuleMorphism ι R)
    (ht : IsTriangular φ) {x : List (ι × R)} (hx : Canon x)
    {p : ι × R} (hp : p ∈ x)
    (hmax : ∀ q ∈ x, (leadPair φ q.1).1 = (leadPair φ p.1).1 ∨
        DLT φ.triangular (leadPair φ q.1).1 (leadPair φ p.1).1) :
    dominantItem φ.triangular (applyL φ x) =
      some ((leadPair φ p.1).1, p.2 * (leadPair φ p.1).2) := by
  have hob : ∀ i, Sorted (φ.on_basis i) := fun i => (ht.canon_on_basis i).1
  have hzero : ∀ q ∈ x, q.1 ≠ p.1 →
      q.2 * coeff (φ.on_basis q.1) (leadPair φ p.1).1 = 0 := by
    intro q hq hfst
    by_cases hc : coeff (φ.on_basis q.1) (leadPair φ p.1).1 = 0
    · rw [hc, mul_zero]
    · exfalso
      rcases on_basis_coeff_dominated ht q.1 hc with h1 | h1
      · exact hfst (leadPair_fst_inj ht h1).symm
      · rcases hmax q hq with h2 | h2
        · rw [h2] at h1
          exact dlt_irrefl φ.triangular _ h1
        · exact dlt_asymm h1 h2
  obtain ⟨l₁, l₂, hdecomp⟩ := List.append_of_mem hp
  have hfstne := fst_ne_of_decomp (hdecomp ▸ hx.1)
  have hcoeffd : coeff (applyL φ x) (leadPair φ p.1).1 =
      p.2 * (leadPair φ p.1).2 := by
    rw [coeff_applyL φ hob, hdecomp, List.map_append, List.sum_append,
      List.map_cons, List.sum_cons]
    have hz1 : (l₁.map fun q =>
        q.2 * coeff (φ.on_basis q.1) (leadPair φ p.1).1).sum = 0 := by
      apply List.sum_eq_zero
      intro a ha
      rcases List.mem_map.mp ha with ⟨q, hq, rfl⟩
      exact hzero q (hdecomp ▸ List.mem_append_left _ hq) (hfstne.1 q hq)
    have hz2 : (l₂.map fun q =>
        q.2 * coeff (φ.on_basis q.1) (leadPair φ p.1).1).sum = 0 := by
      apply List.sum_eq_zero
      intro a ha
      rcases List.mem_map.mp ha with ⟨q, hq, rfl⟩
      refine hzero q ?_ (hfstne.2 q hq)
      rw [hdecomp]
      exact List.mem_append_right _ (List.mem_cons_of_mem _ hq)
    rw [hz1, hz2, leadPair_coeff ht]
    ring
  have hne0 : p.2 * (leadPair φ p.1).2 ≠ 0 :=
    mul_ne_zero (hx.2 p hp) (leadPair_snd_ne_zero ht p.1)
  have habove : ∀ k, coeff (applyL φ x) k ≠ 0 →
      k = (leadPair φ p.1).1 ∨ DLT φ.triangular k (leadPair φ p.1).1 := by
    intro k hk
    rw [coeff_applyL φ hob] at hk
    rcases exists_ne_zero_of_sum_ne_zero hk with ⟨a, ha, hane⟩
    rcases List.mem_map.mp ha with ⟨q, hq, rfl⟩
    have hcne : coeff (φ.on_basis q.1) k ≠ 0 := by
      intro h
      exact hane (by rw [h, mul_zero])
    rcases on_basis_coeff_dominated ht q.1 hcne with h1 | h1 <;>
      rcases hmax q hq with h2 | h2
    · exact Or.inl (h1.trans h2)
    · rw [h1]
      exact Or.inr h2
    · rw [h2] at h1
      exact Or.inr h1
    · exact Or.inr (dlt_trans h1 h2)
  exact dominant_eq_of (canon_applyL φ x) hcoeffd hne0 habove

theorem addL_nil_right {l : List (ι × R)} (hl : Canon l) : addL l [] = l := by
  apply canon_ext (canon_addL canon_nil) hl
  intro k
  rw [coeff_addL hl.1 canon_nil.1, coeff_nil, add_zero]

/-- One `preimage` iteration on an image element: the dominant term of
`applyL φ x` corresponds to the entry of `x` with dominance-maximal image
index; after the exact rescaling, the iteration removes exactly this entry
of `x` from the remainder and records it in the output. -/
theorem preimageStep_applyL (φ : TriangularModuleMorphism ι R)
    (ht : IsTriangular φ) {l₁ l₂ : List (ι × R)} {i : ι} {c : R}
    (hx : Canon (l₁ ++ (i, c) :: l₂))
    (hmax : ∀ q ∈ l₁ ++ (i, c) :: l₂,
      (leadPair φ q.1).1 = (leadPair φ i).1 ∨
        DLT φ.triangular (leadPair φ q.1).1 (leadPair φ i).1)
    (out : List (ι × R)) :
    preimageStep φ (applyL φ (l₁ ++ (i, c) :: l₂)) out =
      Except.ok (applyL φ (l₁ ++ l₂), addL out (single i c)) := by
  have hob : ∀ i', Sorted (φ.on_basis i') :=
    fun i' => (ht.canon_on_basis i').1
  have hp : (i, c) ∈ l₁ ++ (i, c) :: l₂ :=
    List.mem_append_right _ (List.mem_cons_self _ _)
  have hdom := applyL_dominant φ ht hx hp hmax
  have hlcne := leadPair_snd_ne_zero ht i
  have hc2 : (if φ.unitriangular = true then c * (leadPair φ i).2
      else c * (leadPair φ i).2 /
        coeff (φ.on_basis i) (leadPair φ i).1) = c := by
    by_cases hu : φ.unitriangular = true
    · rw [if_pos hu,
        ht.unit_dominant hu i (leadPair φ i).1 (leadPair φ i).2
          (leadPair_eq ht i), mul_one]
    · rw [if_neg hu, leadPair_coeff ht i]
      exact mul_div_cancel_right₀ c hlcne
  have hrem : subL (applyL φ (l₁ ++ (i, c) :: l₂))
      (smulL c (φ.on_basis i)) = applyL φ (l₁ ++ l₂) := by
    apply canon_ext (canon_subL (sorted_smulL (hob i))) (canon_applyL φ _)
    intro k
    rw [coeff_subL (canon_applyL φ _).1 (sorted_smulL (hob i)),
      coeff_smulL (hob i), coeff_applyL φ hob, coeff_applyL φ hob,
      List.map_append, List.sum_append, List.map_append, List.sum_append,
      List.map_cons, List.sum_cons]
    ring
  simp only [preimageStep, hdom, leadPair_inv ht i, leadPair_eq ht i,
    if_pos rfl]
  rw [hc2, hrem]
  exact if_pos trivial

/-- The elimination loop of `preimage`, run on the image of a canonical
element `x` with fuel `x.length`, terminates and accumulates exactly `x`
onto the output. -/
theorem preimageLoop_applyL (φ : TriangularModuleMorphism ι R)
    (ht : IsTriangular φ) :
    ∀ (n : ℕ) (x out : List (ι × R)), Canon x → Canon out →
      x.length ≤ n →
      preimageLoop φ n (applyL φ x) out = Except.ok (addL out x) := by
  intro n
  induction n with
  | zero =>
    intro x out hx hout hlen
    have hx0 : x = [] := List.length_eq_zero.mp (Nat.le_zero.mp hlen)
    subst hx0
    rw [applyL_nil, addL_nil_right hout]
    simp [preimageLoop]
  | succ n ih =>
    intro x out hx hout hlen
    by_cases hxe : x = []
    · subst hxe
      rw [applyL_nil, addL_nil_right hout]
      simp [preimageLoop]
    · rcases exists_dominant_max φ.triangular
        (fun q : ι × R => (leadPair φ q.1).1) x hxe with ⟨pm, hpmem, hpmax⟩
      obtain ⟨im, cm⟩ := pm
      obtain ⟨l₁, l₂, hdecomp⟩ := List.append_of_mem hpmem
      subst hdecomp
      have hrem_ne : applyL φ (l₁ ++ (im, cm) :: l₂) ≠ [] :=
        dominant_ne_nil (applyL_dominant φ ht hx hpmem hpmax)
      have hstep := preimageStep_applyL φ ht hx hpmax out
      have hcanon12 := canon_append_of_middle hx
      have hlen' : (l₁ ++ l₂).length ≤ n := by
        rw [List.length_append] at hlen ⊢
        simp only [List.length_cons] at hlen
        omega
      have hout' : Canon (addL out (single im cm)) :=
        canon_addL (canon_single im cm)
      simp only [preimageLoop, if_neg hrem_ne, hstep]
      rw [ih (l₁ ++ l₂) (addL out (single im cm)) hcanon12 hout' hlen']
      congr 1
      apply canon_ext (canon_addL hcanon12) (canon_addL hx)
      intro k
      rw [coeff_addL (sorted_addL (canon_single im cm).1) hcanon12.1,
        coeff_addL hout.1 (canon_single im cm).1,
        coeff_addL hout.1 hx.1, coeff_single,
        coeff_append_cons hx.1]
      ring

theorem mem_applyL_cod (φ : TriangularModuleMorphism ι R)
    (hob : ∀ i, Sorted (φ.on_basis i))
    (hcod : ∀ i, ∀ p ∈ φ.on_basis i, φ.codMem p.1 = true)
    (x : List (ι × R)) :
    ∀ p ∈ applyL φ x, φ.codMem p.1 = true := by
  intro p hp
  have hcanon := canon_applyL φ x
  have hcoeff : coeff (applyL φ x) p.1 = p.2 :=
    coeff_of_mem hcanon.1 (by simpa using hp)
  have hne : coeff (applyL φ x) p.1 ≠ 0 := by
    rw [hcoeff]
    exact hcanon.2 p hp
  rw [coeff_applyL φ hob] at hne
  rcases exists_ne_zero_of_sum_ne_zero hne with ⟨a, ha, hane⟩
  rcases List.mem_map.mp ha with ⟨q, hq, rfl⟩
  have hcq : coeff (φ.on_basis q.1) p.1 ≠ 0 := by
    intro h
    exact hane (by rw [h, mul_zero])
  rcases List.mem_map.mp (mem_map_fst_of_coeff_ne_zero hcq) with ⟨r, hr, hfst⟩
  exact hfst ▸ hcod q.1 r hr

/-- C1.  Round trip: for every triangular module morphism (triangularity
invariant `IsTriangular`, basis images inside the codomain) and every
canonical domain element `x`, the triangular solve recovers `x` from its
image: `phi.preimage(phi(x)) == x` — with the exact fuel bound
`x.length` (one elimination iteration per term of `x`), so in particular
the rescaling divisions are exact over the field `R`. -/
theorem preimage_roundTrip (φ : TriangularModuleMorphism ι R)
    (ht : IsTriangular φ)
    (hcod : ∀ i, ∀ p ∈ φ.on_basis i, φ.codMem p.1 = true)
    (x : List (ι × R)) (hx : Canon x) :
    preimage φ x.length (applyL φ x) = Except.ok x := by
  have hall : ((applyL φ x).all fun p => φ.codMem p.1) = true :=
    List.all_eq_true.mpr
      (mem_applyL_cod φ (fun i => (ht.canon_on_basis i).1) hcod x)
  unfold preimage
  rw [if_pos hall,
    preimageLoop_applyL φ ht x.length x [] hx canon_nil (le_refl _),
    addL_nil_left]

/-- One `coreduced` iteration on an image element: identical elimination to
`preimageStep_applyL`, except that the accumulated result is unchanged
(every dominant index of an image element has an `inverse_on_support`
preimage, so the retain branch is never taken). -/
theorem coreducedStep_applyL (φ : TriangularModuleMorphism ι R)
    (ht : IsTriangular φ) {l₁ l₂ : List (ι × R)} {i : ι} {c : R}
    (hx : Canon (l₁ ++ (i, c) :: l₂))
    (hmax : ∀ q ∈ l₁ ++ (i, c) :: l₂,
      (leadPair φ q.1).1 = (leadPair φ i).1 ∨
        DLT φ.triangular (leadPair φ q.1).1 (leadPair φ i).1)
    (res : List (ι × R)) :
    coreducedStep φ (applyL φ (l₁ ++ (i, c) :: l₂)) res =
      Except.ok (applyL φ (l₁ ++ l₂), res) := by
  have hob : ∀ i', Sorted (φ.on_basis i') :=
    fun i' => (ht.canon_on_basis i').1
  have hp : (i, c) ∈ l₁ ++ (i, c) :: l₂ :=
    List.mem_append_right _ (List.mem_cons_self _ _)
  have hdom := applyL_dominant φ ht hx hp hmax
  have hlcne := leadPair_snd_ne_zero ht i
  have hc2 : (if φ.unitriangular = true then c * (leadPair φ i).2
      else c * (leadPair φ i).2 /
        coeff (φ.on_basis i) (leadPair φ i).1) = c := by
    by_cases hu : φ.unitriangular = true
    · rw [if_pos hu,
        ht.unit_dominant hu i (leadPair φ i).1 (leadPair φ i).2
          (leadPair_eq ht i), mul_one]
    · rw [if_neg hu, leadPair_coeff ht i]
      exact mul_div_cancel_right₀ c hlcne
  have hrem : subL (applyL φ (l₁ ++ (i, c) :: l₂))
      (smulL c (φ.on_basis i)) = applyL φ (l₁ ++ l₂) := by
    apply canon_ext (canon_subL (sorted_smulL (hob i))) (canon_applyL φ _)
    intro k
    rw [coeff_subL (canon_applyL φ _).1 (sorted_smulL (hob i)),
      coeff_smulL (hob i), coeff_applyL φ hob, coeff_applyL φ hob,
      List.map_append, List.sum_append, List.map_append, List.sum_append,
      List.map_cons, List.sum_cons]
    ring
  simp only [coreducedStep, hdom, leadPair_inv ht i, leadPair_eq ht i,
    if_pos rfl]
  rw [hc2, hrem]
  exact if_pos trivial

/-- The elimination loop of `coreduced`, run on the image of a canonical
element `x` with fuel `x.length`, terminates with an unchanged result
accumulator. -/
theorem coreducedLoop_applyL (φ : TriangularModuleMorphism ι R)
    (ht : IsTriangular φ) :
    ∀ (n : ℕ) (x res : List (ι × R)), Canon x → x.length ≤ n →
      coreducedLoop φ n (applyL φ x) res = Except.ok res := by
  intro n
  induction n with
  | zero =>
    intro x res hx hlen
    have hx0 : x = [] := List.length_eq_zero.mp (Nat.le_zero.mp hlen)
    subst hx0
    rw [applyL_nil]
    simp [coreducedLoop]
  | succ n ih =>
    intro x res hx hlen
    by_cases hxe : x = []
    · subst hxe
      rw [applyL_nil]
      simp [coreducedLoop]
    · rcases exists_dominant_max φ.triangular
        (fun q : ι × R => (leadPair φ q.1).1) x hxe with ⟨pm, hpmem, hpmax⟩
      obtain ⟨im, cm⟩ := pm
      obtain ⟨l₁, l₂, hdecomp⟩ := List.append_of_mem hpmem
      subst hdecomp
      have hrem_ne : applyL φ (l₁ ++ (im, cm) :: l₂) ≠ [] :=
        dominant_ne_nil (applyL_dominant φ ht hx hpmem hpmax)
      have hstep := coreducedStep_applyL φ ht hx hpmax res
      have hcanon12 := canon_append_of_middle hx
      have hlen' : (l₁ ++ l₂).length ≤ n := by
        rw [List.length_append] at hlen ⊢
        simp only [List.length_cons] at hlen
        omega
      simp only [coreducedLoop, if_neg hrem_ne, hstep]
      exact ih (l₁ ++ l₂) res hcanon12 hlen'

/-- C3.  For every triangular module morphism satisfying the precondition
of `coreduced` (base ring a field, or unitriangular) and every canonical
domain element `x`, the coreduction of `phi(x)` is the zero element of the
codomain. -/
theorem coreduced_applyL_eq_zero (φ : TriangularModuleMorphism ι R)
    (ht : IsTriangular φ)
    (hcod : ∀ i, ∀ p ∈ φ.on_basis i, φ.codMem p.1 = true)
    (hpre : φ.baseIsField = true ∨ φ.unitriangular = true)
    (x : List (ι × R)) (hx : Canon x) :
    coreduced φ x.length (applyL φ x) = Except.ok [] := by
  have hguard : ¬ ((!φ.baseIsField && !φ.unitriangular) = true) := by
    rcases hpre with h | h <;> simp [h]
  have hall : ((applyL φ x).all fun p => φ.codMem p.1) = true :=
    List.all_eq_true.mpr
      (mem_applyL_cod φ (fun i => (ht.canon_on_basis i).1) hcod x)
  unfold coreduced
  rw [if_neg hguard, if_pos hall]
  exact coreducedLoop_applyL φ ht x.length x [] hx (le_refl _)

theorem mem_fst_subL {l m : List (ι × R)} :
    ∀ p ∈ subL l m, p.1 ∈ l.map Prod.fst ∨ p.1 ∈ m.map Prod.fst := by
  intro p hp
  unfold subL at hp
  rcases mem_addL p hp with h | h
  · exact Or.inl h
  · exact Or.inr (mem_smulL p h).1

/-- Case analysis of a successful `coreducedStep`: either the dominant term
had no index preimage and was moved from the remainder to the result, or it
was eliminated against `on_basis i` with the result left unchanged. -/
theorem coreducedStep_ok (φ : TriangularModuleMorphism ι R)
    {rem res r' res' : List (ι × R)}
    (h : coreducedStep φ rem res = Except.ok (r', res')) :
    ∃ j c, dominantItem φ.triangular rem = some (j, c) ∧
      ((φ.inverse_on_support j = none ∧ r' = subL rem (single j c) ∧
          res' = addL res (single j c)) ∨
        ∃ i c2, φ.inverse_on_support j = some i ∧ res' = res ∧
          r' = subL rem (smulL c2 (φ.on_basis i))) := by
  unfold coreducedStep at h
  cases hdom : dominantItem φ.triangular rem with
  | none =>
    rw [hdom] at h
    exact Except.noConfusion h
  | some p =>
    obtain ⟨j, c⟩ := p
    refine ⟨j, c, rfl, ?_⟩
    cases hios : φ.inverse_on_support j with
    | none =>
      simp only [hdom, hios, Except.ok.injEq, Prod.mk.injEq] at h
      exact Or.inl ⟨rfl, h.1.symm, h.2.symm⟩
    | some i =>
      simp only [hdom, hios] at h
      cases hdoms : dominantItem φ.triangular (φ.on_basis i) with
      | none =>
        rw [hdoms] at h
        exact Except.noConfusion h
      | some q =>
        obtain ⟨j', d⟩ := q
        simp only [hdoms] at h
        by_cases hjj : j = j'
        · simp only [if_pos hjj, Except.ok.injEq, Prod.mk.injEq] at h
          exact Or.inr ⟨i, _, rfl, h.2.symm, h.1.symm⟩
        · rw [if_neg hjj] at h
          exact Except.noConfusion h

/-- The retained-terms invariant of the `coreduced` loop: every index ever
moved into the result has no `inverse_on_support` preimage. -/
theorem coreducedLoop_support_aux (φ : TriangularModuleMorphism ι R) :
    ∀ (n : ℕ) (rem res r : List (ι × R)),
      coreducedLoop φ n rem res = Except.ok r →
      (∀ j ∈ res.map Prod.fst, φ.inverse_on_support j = none) →
      ∀ j ∈ r.map Prod.fst, φ.inverse_on_support j = none := by
  intro n
  induction n with
  | zero =>
    intro rem res r h hres
    unfold coreducedLoop at h
    by_cases hre : rem = []
    · rw [if_pos hre] at h
      exact (Except.ok.inj h) ▸ hres
    · rw [if_neg hre] at h
      exact Except.noConfusion h
  | succ n ih =>
    intro rem res r h hres
    by_cases hre : rem = []
    · unfold coreducedLoop at h
      rw [if_pos hre] at h
      exact (Except.ok.inj h) ▸ hres
    · unfold coreducedLoop at h
      rw [if_neg hre] at h
      cases hstep : coreducedStep φ rem res with
      | error e =>
        rw [hstep] at h
        exact Except.noConfusion h
      | ok pr =>
        obtain ⟨r', res'⟩ := pr
        rw [hstep] at h
        rcases coreducedStep_ok φ hstep with ⟨j, c, hdom, hcase⟩
        rcases hcase with ⟨hios, _, hres'⟩ | ⟨i, c2, _, hres', _⟩
        · refine ih r' res' r h ?_
          intro k hk
          rcases List.mem_map.mp hk with ⟨q, hq, rfl⟩
          rw [hres'] at hq
          rcases mem_addL q hq with h1 | h1
          · exact hres q.1 h1
          · rw [(mem_single q h1).1]
            exact hios
        · exact ih r' res' r h (hres' ▸ hres)

/-- Invariants preserved by the `coreduced` loop: the result of a
successful run is canonical with support inside the codomain. -/
theorem coreducedLoop_invariants (φ : TriangularModuleMorphism ι R)
    (hob : ∀ i, Sorted (φ.on_basis i))
    (hcod : ∀ i, ∀ p ∈ φ.on_basis i, φ.codMem p.1 = true) :
    ∀ (n : ℕ) (rem res r : List (ι × R)), Canon rem → Canon res →
      (∀ j ∈ rem.map Prod.fst, φ.codMem j = true) →
      (∀ j ∈ res.map Prod.fst, φ.codMem j = true) →
      coreducedLoop φ n rem res = Except.ok r →
      Canon r ∧ ∀ j ∈ r.map Prod.fst, φ.codMem j = true := by
  intro n
  induction n with
  | zero =>
    intro rem res r hrem hres hremc hresc h
    unfold coreducedLoop at h
    by_cases hre : rem = []
    · rw [if_pos hre] at h
      exact (Except.ok.inj h) ▸ ⟨hres, hresc⟩
    · rw [if_neg hre] at h
      exact Except.noConfusion h
  | succ n ih =>
    intro rem res r hrem hres hremc hresc h
    by_cases hre : rem = []
    · unfold coreducedLoop at h
      rw [if_pos hre] at h
      exact (Except.ok.inj h) ▸ ⟨hres, hresc⟩
    · unfold coreducedLoop at h
      rw [if_neg hre] at h
      cases hstep : coreducedStep φ rem res with
      | error e =>
        rw [hstep] at h
        exact Except.noConfusion h
      | ok pr =>
        obtain ⟨r', res'⟩ := pr
        rw [hstep] at h
        rcases coreducedStep_ok φ hstep with ⟨j, c, hdom, hcase⟩
        have hjmem : j ∈ rem.map Prod.fst :=
          List.mem_map_of_mem Prod.fst (dominant_mem hdom)
        rcases hcase with ⟨hios, hr', hres'⟩ | ⟨i, c2, hios, hres', hr'⟩
        · refine ih r' res' r ?_ ?_ ?_ ?_ h
          · rw [hr']
            exact canon_subL (canon_single j c).1
          · rw [hres']
            exact canon_addL (canon_single j c)
          · intro k hk
            rcases List.mem_map.mp hk with ⟨q, hq, rfl⟩
            rw [hr'] at hq
            rcases mem_fst_subL q hq with h1 | h1
            · exact hremc q.1 h1
            · rcases List.mem_map.mp h1 with ⟨q', hq', hfst⟩
              rw [← hfst, (mem_single q' hq').1]
              exact hremc j hjmem
          · intro k hk
            rcases List.mem_map.mp hk with ⟨q, hq, rfl⟩
            rw [hres'] at hq
            rcases mem_addL q hq with h1 | h1
            · exact hresc q.1 h1
            · rw [(mem_single q h1).1]
              exact hremc j hjmem
        · refine ih r' res' r ?_ (hres' ▸ hres) ?_ (hres' ▸ hresc) h
          · rw [hr']
            exact canon_subL (sorted_smulL (hob i))
          · intro k hk
            rcases List.mem_map.mp hk with ⟨q, hq, rfl⟩
            rw [hr'] at hq
            rcases mem_fst_subL q hq with h1 | h1
            · exact hremc q.1 h1
            · rcases List.mem_map.mp h1 with ⟨q', hq', hfst⟩
              rcases List.mem_map.mp (mem_smulL q' hq').1 with ⟨q'', hq'', hfst'⟩
              rw [← hfst, ← hfst']
              exact hcod i q'' hq''
  
theorem coreduced_ok_extract (φ : TriangularModuleMorphism ι R)
    {fuel : ℕ} {y r : List (ι × R)}
    (h : coreduced φ fuel y = Except.ok r) :
    ¬((!φ.baseIsField && !φ.unitriangular) = true) ∧
      (y.all fun p => φ.codMem p.1) = true ∧
      coreducedLoop φ fuel y [] = Except.ok r := by
  unfold coreduced at h
  by_cases h1 : (!φ.baseIsField && !φ.unitriangular) = true
  · rw [if_pos h1] at h
    exact Except.noConfusion h
  · rw [if_neg h1] at h
    by_cases h2 : (y.all fun p => φ.codMem p.1) = true
    · rw [if_pos h2] at h
      exact ⟨h1, h2, h⟩
    · rw [if_neg h2] at h
      exact Except.noConfusion h

/-- When every index of the remainder support lacks an
`inverse_on_support` preimage, the `coreduced` loop moves the whole
remainder into the result, one dominant term per iteration. -/
theorem coreducedLoop_none (φ : TriangularModuleMorphism ι R) :
    ∀ (n : ℕ) (rem res : List (ι × R)), rem.length ≤ n →
      Canon rem → Canon res →
      (∀ j ∈ rem.map Prod.fst, φ.inverse_on_support j = none) →
      coreducedLoop φ rem.length rem res = Except.ok (addL res rem) := by
  intro n
  induction n with
  | zero =>
    intro rem res hlen hrem hres hnone
    have hre : rem = [] := List.length_eq_zero.mp (Nat.le_zero.mp hlen)
    subst hre
    rw [addL_nil_right hres]
    simp [coreducedLoop]
  | succ n ih =>
    intro rem res hlen hrem hres hnone
    by_cases hre : rem = []
    · subst hre
      rw [addL_nil_right hres]
      simp [coreducedLoop]
    · rcases dominant_exists (t := φ.triangular) hre with ⟨⟨j, c⟩, hdom⟩
      have hmem := dominant_mem hdom
      have hios : φ.inverse_on_support j = none :=
        hnone j (List.mem_map_of_mem Prod.fst hmem)
      have hstep : coreducedStep φ rem res =
          Except.ok (subL rem (single j c), addL res (single j c)) := by
        simp only [coreducedStep, hdom, hios]
      obtain ⟨l₁, l₂, hdecomp⟩ := List.append_of_mem hmem
      have hsubdec : subL rem (single j c) = l₁ ++ l₂ := by
        rw [hdecomp]
        exact subL_single_decomp (hdecomp ▸ hrem)
      have hlen1 : rem.length = (l₁ ++ l₂).length + 1 := by
        rw [hdecomp]
        simp [List.length_append]
        omega
      have hcanon12 : Canon (l₁ ++ l₂) :=
        canon_append_of_middle (hdecomp ▸ hrem)
      have hnone12 : ∀ k ∈ (l₁ ++ l₂).map Prod.fst,
          φ.inverse_on_support k = none := by
        intro k hk
        apply hnone
        rcases List.mem_map.mp hk with ⟨q, hq, rfl⟩
        apply List.mem_map_of_mem
        rw [hdecomp]
        rcases List.mem_append.mp hq with h1 | h1
        · exact List.mem_append_left _ h1
        · exact List.mem_append_right _ (List.mem_cons_of_mem _ h1)
      have hres' : Canon (addL res (single j c)) :=
        canon_addL (canon_single j c)
      rw [hlen1]
      simp only [coreducedLoop, if_neg hre, hstep, hsubdec]
      have hlen2 : (l₁ ++ l₂).length ≤ n := by
        rw [hlen1] at hlen
        omega
      rw [ih (l₁ ++ l₂) (addL res (single j c)) hlen2 hcanon12 hres' hnone12]
      congr 1
      apply canon_ext (canon_addL hcanon12) (canon_addL hrem)
      intro k
      rw [coeff_addL (sorted_addL (canon_single j c).1) hcanon12.1,
        coeff_addL hres.1 (canon_single j c).1,
        coeff_addL hres.1 hrem.1, coeff_single, hdecomp,
        coeff_append_cons (hdecomp ▸ hrem.1)]
      ring

/-- C8.  Normal-form support invariant of `coreduced`: for a morphism
satisfying the precondition of `coreduced` (base ring a field, or
unitriangular), every index `j` in the support of a successful
`coreduced(y)` satisfies `inverse_on_support(j) = None` — the normal form
contains only terms whose index is never a dominant index of an image
element. -/
theorem coreduced_support_none (φ : TriangularModuleMorphism ι R)
    (hpre : φ.baseIsField = true ∨ φ.unitriangular = true)
    (fuel : ℕ) (y r : List (ι × R))
    (h : coreduced φ fuel y = Except.ok r) :
    ∀ j ∈ r.map Prod.fst, φ.inverse_on_support j = none := by
  rcases coreduced_ok_extract φ h with ⟨_, _, hloop⟩
  exact coreducedLoop_support_aux φ fuel y [] r hloop (by simp)

/-- C4.  Coreduction idempotence: whenever `coreduced(y)` succeeds, running
`coreduced` again on the result returns it unchanged (with fuel one
iteration per retained term): `coreduced(coreduced(y)) == coreduced(y)`. -/
theorem coreduced_idem (φ : TriangularModuleMorphism ι R)
    (hob : ∀ i, Canon (φ.on_basis i))
    (hcod : ∀ i, ∀ p ∈ φ.on_basis i, φ.codMem p.1 = true)
    (fuel : ℕ) (y r : List (ι × R)) (hy : Canon y)
    (h : coreduced φ fuel y = Except.ok r) :
    coreduced φ r.length r = Except.ok r := by
  rcases coreduced_ok_extract φ h with ⟨hguard, hall, hloop⟩
  have hyc : ∀ j ∈ y.map Prod.fst, φ.codMem j = true := by
    intro j hj
    rcases List.mem_map.mp hj with ⟨q, hq, rfl⟩
    exact List.all_eq_true.mp hall q hq
  obtain ⟨hcr, hcodr⟩ := coreducedLoop_invariants φ (fun i => (hob i).1)
    hcod fuel y [] r hy canon_nil hyc (by simp) hloop
  have hnone := coreducedLoop_support_aux φ fuel y [] r hloop (by simp)
  unfold coreduced
  rw [if_neg hguard,
    if_pos (List.all_eq_true.mpr fun p hp =>
      hcodr p.1 (List.mem_map_of_mem Prod.fst hp)),
    coreducedLoop_none φ r.length r [] (le_refl _) hcr canon_nil hnone,
    addL_nil_left]

/-- C9.  Zero preimage edge case: for every morphism state and every fuel,
`preimage` of the codomain's zero element returns the domain's zero
element without error — whatever the `invertible` flag and however partial
`inverse_on_support` is, since the elimination loop is never entered. -/
theorem preimage_zero_elt (φ : TriangularModuleMorphism ι R) (fuel : ℕ) :
    preimage φ fuel ([] : List (ι × R)) = Except.ok [] := by
  unfold preimage
  rw [if_pos (by simp)]
  cases fuel <;> simp [preimageLoop]

theorem preimageStep_ne_notInCodomain (φ : TriangularModuleMorphism ι R)
    (rem out : List (ι × R)) :
    preimageStep φ rem out ≠ Except.error MorphErr.notInCodomain := by
  unfold preimageStep
  cases hdom : dominantItem φ.triangular rem with
  | none => simp
  | some p =>
    obtain ⟨j, c⟩ := p
    cases hios : φ.inverse_on_support j with
    | none => simp [hios]
    | some i =>
      cases hdoms : dominantItem φ.triangular (φ.on_basis i) with
      | none => simp [hios, hdoms]
      | some q =>
        obtain ⟨j', d⟩ := q
        by_cases hjj : j = j'
        · subst hjj
          simp [hios, hdoms]
        · simp [hios, hdoms, hjj]

theorem preimageLoop_ne_notInCodomain (φ : TriangularModuleMorphism ι R) :
    ∀ (n : ℕ) (rem out : List (ι × R)),
      preimageLoop φ n rem out ≠ Except.error MorphErr.notInCodomain := by
  intro n
  induction n with
  | zero =>
    intro rem out
    unfold preimageLoop
    by_cases hre : rem = [] <;> simp [hre]
  | succ n ih =>
    intro rem out
    unfold preimageLoop
    by_cases hre : rem = []
    · simp [hre]
    · rw [if_neg hre]
      cases hstep : preimageStep φ rem out with
      | error e =>
        intro h
        have he : e = MorphErr.notInCodomain := Except.error.inj h
        exact preimageStep_ne_notInCodomain φ rem out (he ▸ hstep)
      | ok pr =>
        obtain ⟨r', out'⟩ := pr
        exact ih r' out'

/-- C10.  Preimage codomain-membership check: `preimage(f)` raises the
`ValueError` stating that `f` must be in the codomain exactly when the
support of `f` is not contained in the codomain's basis-index set (the
containment test `f in G`, as opposed to the parent-identity assertion of
`__call__`); the test precedes the elimination loop, so for such `f` the
outcome is exactly this error whatever the fuel. -/
theorem preimage_codomain_check (φ : TriangularModuleMorphism ι R)
    (fuel : ℕ) (f : List (ι × R)) :
    preimage φ fuel f = Except.error MorphErr.notInCodomain ↔
      (f.all fun p => φ.codMem p.1) = false := by
  unfold preimage
  by_cases hall : (f.all fun p => φ.codMem p.1) = true
  · rw [if_pos hall, hall]
    simp only [Bool.true_eq_false, iff_false]
    exact preimageLoop_ne_notInCodomain φ fuel f []
  · rw [if_neg hall]
    rw [Bool.not_eq_true] at hall
    simp [hall]

theorem coreducedStep_ne_notImplemented (φ : TriangularModuleMorphism ι R)
    (rem res : List (ι × R)) :
    coreducedStep φ rem res ≠ Except.error MorphErr.notImplemented := by
  unfold coreducedStep
  cases hdom : dominantItem φ.triangular rem with
  | none => simp
  | some p =>
    obtain ⟨j, c⟩ := p
    cases hios : φ.inverse_on_support j with
    | none => simp [hios]
    | some i =>
      cases hdoms : dominantItem φ.triangular (φ.on_basis i) with
      | none => simp [hios, hdoms]
      | some q =>
        obtain ⟨j', d⟩ := q
        by_cases hjj : j = j'
        · subst hjj
          simp [hios, hdoms]
        · simp [hios, hdoms, hjj]

theorem coreducedLoop_ne_notImplemented (φ : TriangularModuleMorphism ι R) :
    ∀ (n : ℕ) (rem res : List (ι × R)),
      coreducedLoop φ n rem res ≠ Except.error MorphErr.notImplemented := by
  intro n
  induction n with
  | zero =>
    intro rem res
    unfold coreducedLoop
    by_cases hre : rem = [] <;> simp [hre]
  | succ n ih =>
    intro rem res
    unfold coreducedLoop
    by_cases hre : rem = []
    · simp [hre]
    · rw [if_neg hre]
      cases hstep : coreducedStep φ rem res with
      | error e =>
        intro h
        have he : e = MorphErr.notImplemented := Except.error.inj h
        exact coreducedStep_ne_notImplemented φ rem res (he ▸ hstep)
      | ok pr =>
        obtain ⟨r', res'⟩ := pr
        exact ih r' res'

theorem coreduced_ne_notImplemented_of (φ : TriangularModuleMorphism ι R)
    (fuel : ℕ) (y : List (ι × R))
    (h : (!φ.baseIsField && !φ.unitriangular) = false) :
    coreduced φ fuel y ≠ Except.error MorphErr.notImplemented := by
  unfold coreduced
  rw [if_neg (by simp [h])]
  by_cases h2 : (y.all fun p => φ.codMem p.1) = true
  · rw [if_pos h2]
    exact coreducedLoop_ne_notImplemented φ fuel y []
  · rw [if_neg h2]
    simp

/-- C6.  Unsupported-configuration errors: `coreduced` raises
`NotImplementedError` exactly when the morphism is not unitriangular and
the base ring is not a field; `cokernel_basis_indices` raises
`NotImplementedError` exactly when (not unitriangular and base ring not a
field) or the codomain is not finite dimensional; in the supported
configurations neither operation returns this error. -/
theorem notImplemented_iff (φ : TriangularModuleMorphism ι R)
    (fuel : ℕ) (y : List (ι × R)) :
    (coreduced φ fuel y = Except.error MorphErr.notImplemented ↔
      (φ.baseIsField = false ∧ φ.unitriangular = false)) ∧
    (cokernel_basis_indices φ = Except.error MorphErr.notImplemented ↔
      ((φ.baseIsField = false ∧ φ.unitriangular = false) ∨
        φ.codFinite = false)) := by
  constructor
  · by_cases hg : (!φ.baseIsField && !φ.unitriangular) = true
    · have hval : coreduced φ fuel y =
          Except.error MorphErr.notImplemented := by
        unfold coreduced
        rw [if_pos hg]
      simp only [Bool.and_eq_true, Bool.not_eq_true'] at hg
      simp [hval, hg]
    · rw [Bool.not_eq_true] at hg
      have hne := coreduced_ne_notImplemented_of φ fuel y hg
      constructor
      · intro h
        exact absurd h hne
      · rintro ⟨h1, h2⟩
        rw [h1, h2] at hg
        simp at hg
  · unfold cokernel_basis_indices
    by_cases hg : (!φ.baseIsField && !φ.unitriangular) = true
    · rw [if_pos hg]
      simp only [Bool.and_eq_true, Bool.not_eq_true'] at hg
      simp [hg]
    · rw [if_neg hg]
      rw [Bool.not_eq_true] at hg
      by_cases hf : (!φ.codFinite) = true
      · rw [if_pos hf]
        rw [Bool.not_eq_true'] at hf
        simp [hf]
      · rw [if_neg hf]
        rw [Bool.not_eq_true, Bool.not_eq_false'] at hf
        constructor
        · intro h
          exact Except.noConfusion h
        · rintro (⟨h1, h2⟩ | h1)
          · rw [h1, h2] at hg
            simp at hg
          · rw [h1] at hf
            simp at hf

theorem coeff_dominated {t : Tri} {l : List (ι × R)} (hl : Sorted l)
    {j : ι} {c : R} (hdom : dominantItem t l = some (j, c)) {k : ι}
    (hk : coeff l k ≠ 0) : k = j ∨ DLT t k j := by
  rcases List.mem_map.mp (mem_map_fst_of_coeff_ne_zero hk) with ⟨q, hq, hfst⟩
  rcases dominant_top hl hdom q hq with h1 | h1
  · exact Or.inl (hfst ▸ h1)
  · exact Or.inr (hfst ▸ h1)

theorem preimageStep_ne_outOfFuel (φ : TriangularModuleMorphism ι R)
    (rem out : List (ι × R)) :
    preimageStep φ rem out ≠ Except.error MorphErr.outOfFuel := by
  unfold preimageStep
  cases hdom : dominantItem φ.triangular rem with
  | none => simp
  | some p =>
    obtain ⟨j, c⟩ := p
    cases hios : φ.inverse_on_support j with
    | none => simp [hios]
    | some i =>
      cases hdoms : dominantItem φ.triangular (φ.on_basis i) with
      | none => simp [hios, hdoms]
      | some q =>
        obtain ⟨j', d⟩ := q
        by_cases hjj : j = j'
        · subst hjj
          simp [hios, hdoms]
        · simp [hios, hdoms, hjj]

/-- Descent of the elimination: after a successful `preimage` iteration on
a canonical remainder with dominant index `j`, the new remainder is
canonical and its support is strictly dominated by `j` (the dominant term
is cancelled exactly, the other terms of remainder and of the rescaled
basis image are all below `j`). -/
theorem preimageStep_dominant_decrease (φ : TriangularModuleMorphism ι R)
    (ht : IsTriangular φ) {rem out r' out' : List (ι × R)}
    (hrem : Canon rem)
    (hok : preimageStep φ rem out = Except.ok (r', out'))
    {j : ι} {c : R} (hdom : dominantItem φ.triangular rem = some (j, c)) :
    Canon r' ∧ ∀ k, coeff r' k ≠ 0 → DLT φ.triangular k j := by
  have hob : ∀ i', Sorted (φ.on_basis i') :=
    fun i' => (ht.canon_on_basis i').1
  unfold preimageStep at hok
  rw [hdom] at hok
  cases hios : φ.inverse_on_support j with
  | none =>
    simp only [hios] at hok
    exact Except.noConfusion hok
  | some i =>
    simp only [hios, leadPair_eq ht i] at hok
    by_cases hjl : j = (leadPair φ i).1
    · rw [if_pos hjl] at hok
      obtain ⟨hr', _⟩ := Prod.mk.injEq .. ▸ Except.ok.inj hok
      have hcd : coeff (φ.on_basis i) j = (leadPair φ i).2 := by
        rw [hjl]
        exact leadPair_coeff ht i
      have hc2 : (if φ.unitriangular = true then c
          else c / coeff (φ.on_basis i) j) * coeff (φ.on_basis i) j = c := by
        by_cases hu : φ.unitriangular = true
        · rw [if_pos hu, hcd,
            ht.unit_dominant hu i (leadPair φ i).1 (leadPair φ i).2
              (leadPair_eq ht i), mul_one]
        · rw [if_neg hu]
          exact div_mul_cancel₀ c
            (by rw [hcd]; exact leadPair_snd_ne_zero ht i)
      have hcanonr' : Canon r' := by
        rw [← hr']
        exact canon_subL (sorted_smulL (hob i))
      refine ⟨hcanonr', ?_⟩
      intro k hk
      have hcoeffr' : coeff r' k =
          coeff rem k - (if φ.unitriangular = true then c
            else c / coeff (φ.on_basis i) j) * coeff (φ.on_basis i) k := by
        rw [← hr', coeff_subL hrem.1 (sorted_smulL (hob i)),
          coeff_smulL (hob i)]
      have hkj : k ≠ j := by
        intro hkj
        subst hkj
        rw [hcoeffr', coeff_of_mem hrem.1 (dominant_mem hdom), hc2,
          sub_self] at hk
        exact hk rfl
      rw [hcoeffr'] at hk
      by_cases h1 : coeff rem k ≠ 0
      · rcases coeff_dominated hrem.1 hdom h1 with h2 | h2
        · exact absurd h2 hkj
        · exact h2
      · push_neg at h1
        have h2 : coeff (φ.on_basis i) k ≠ 0 := by
          intro h3
          rw [h1, h3, mul_zero, sub_zero] at hk
          exact hk rfl
        rcases coeff_dominated (hob i) (leadPair_eq2 ht i) h2 with h3 | h3
        · rw [← hjl] at h3
          exact absurd h3 hkj
        · rw [← hjl] at h3
          exact h3
    · rw [if_neg hjl] at hok
      exact Except.noConfusion hok

/-- C7 (amended).  Strict descent and termination of the `preimage`
elimination loop: for every morphism satisfying the triangularity
invariant, (a) at every successful iteration the dominant index of the
remainder strictly decreases (upper convention) / increases (lower
convention), i.e. descends in the dominance order; and (b) provided the
dominance order on the index set is well founded — which local finiteness
alone does not guarantee — `preimage` terminates on every canonical
codomain element: some fuel suffices, and the outcome is then never the
fuel-exhaustion marker. -/
theorem preimage_descent_terminates (φ : TriangularModuleMorphism ι R)
    (ht : IsTriangular φ)
    (hwf : WellFounded fun a b : ι => DLT φ.triangular a b) :
    (∀ (rem out r' out' : List (ι × R)) (j : ι) (c : R), Canon rem →
      preimageStep φ rem out = Except.ok (r', out') →
      dominantItem φ.triangular rem = some (j, c) →
      ∀ (j' : ι) (c' : R), dominantItem φ.triangular r' = some (j', c') →
        DLT φ.triangular j' j) ∧
    ∀ f : List (ι × R), Canon f →
      ∃ n, preimage φ n f ≠ Except.error MorphErr.outOfFuel := by
  have hdecstep : ∀ (rem out r' out' : List (ι × R)) (j : ι) (c : R),
      Canon rem → preimageStep φ rem out = Except.ok (r', out') →
      dominantItem φ.triangular rem = some (j, c) →
      ∀ (j' : ι) (c' : R), dominantItem φ.triangular r' = some (j', c') →
        DLT φ.triangular j' j := by
    intro rem out r' out' j c hrem hok hdom j' c' hdom'
    obtain ⟨hcr', hdec⟩ := preimageStep_dominant_decrease φ ht hrem hok hdom
    apply hdec
    rw [coeff_of_mem hcr'.1 (dominant_mem hdom')]
    exact hcr'.2 _ (dominant_mem hdom')
  refine ⟨hdecstep, ?_⟩
  have hloop : ∀ j : ι, ∀ (rem out : List (ι × R)) (c : R), Canon rem →
      dominantItem φ.triangular rem = some (j, c) →
      ∃ n, preimageLoop φ n rem out ≠ Except.error MorphErr.outOfFuel := by
    intro j
    refine hwf.induction (C := fun j => ∀ (rem out : List (ι × R)) (c : R),
      Canon rem → dominantItem φ.triangular rem = some (j, c) →
      ∃ n, preimageLoop φ n rem out ≠ Except.error MorphErr.outOfFuel)
      j ?_
    intro x ih rem out c hrem hdom
    have hne : rem ≠ [] := dominant_ne_nil hdom
    cases hstep : preimageStep φ rem out with
    | error e =>
      refine ⟨1, ?_⟩
      simp only [preimageLoop, if_neg hne, hstep]
      intro hc
      have he : e = MorphErr.outOfFuel := Except.error.inj hc
      exact preimageStep_ne_outOfFuel φ rem out (he ▸ hstep)
    | ok pr =>
      obtain ⟨r', out'⟩ := pr
      by_cases hre' : r' = []
      · refine ⟨2, ?_⟩
        subst hre'
        simp only [preimageLoop, if_neg hne, hstep]
        simp
      · rcases dominant_exists (t := φ.triangular) hre' with ⟨⟨j2, c2⟩, hdom2⟩
        have hcr' : Canon r' :=
          (preimageStep_dominant_decrease φ ht hrem hstep hdom).1
        have hdlt : DLT φ.triangular j2 x :=
          hdecstep rem out r' out' x c hrem hstep hdom j2 c2 hdom2
        rcases ih j2 hdlt r' out' c2 hcr' hdom2 with ⟨n, hn⟩
        refine ⟨n + 1, ?_⟩
        simp only [preimageLoop, if_neg hne, hstep]
        exact hn
  intro f hf
  unfold preimage
  by_cases hall : (f.all fun p => φ.codMem p.1) = true
  · by_cases hfe : f = []
    · refine ⟨0, ?_⟩
      rw [if_pos hall]
      subst hfe
      simp [preimageLoop]
    · rcases dominant_exists (t := φ.triangular) hfe with ⟨⟨j, c⟩, hdom⟩
      rcases hloop j f [] c hf hdom with ⟨n, hn⟩
      refine ⟨n, ?_⟩
      rw [if_pos hall]
      exact hn
  · refine ⟨0, ?_⟩
    rw [if_neg hall]
    simp

theorem phiZ_isTriangular : IsTriangular phiZ := by
  refine ⟨?_, ?_, ?_, ?_⟩
  · intro i
    constructor
    · refine List.pairwise_cons.mpr ⟨?_, List.pairwise_singleton _ _⟩
      intro q hq
      simp only [List.mem_singleton] at hq
      subst hq
      show i - 1 < i
      omega
    · intro p hp
      simp only [phiZ, List.mem_cons, List.not_mem_nil, or_false] at hp
      rcases hp with rfl | rfl
      · norm_num
      · norm_num
  · intro i
    simp [phiZ]
  · intro i j c h
    simp only [phiZ, dominantItem, List.head?_cons, Option.some.injEq] at h
    have hj : j = i := by
      have := congrArg Prod.fst h
      simpa using this.symm
    subst hj
    rfl
  · intro _ i j c h
    simp only [phiZ, dominantItem, List.head?_cons, Option.some.injEq] at h
    have := congrArg Prod.snd h
    simpa using this.symm

theorem phiZ_step (a : ℤ) (out : List (ℤ × ℚ)) :
    preimageStep phiZ [(a, 1)] out =
      Except.ok ([(a - 1, 1)], addL out (single a 1)) := by
  have hsm : smulL ((1:ℚ)) (phiZ.on_basis a) = [(a, 1), (a - 1, -1)] := by
    simp [phiZ, smulL, List.filter]
  have hsub : subL [(a, (1:ℚ))] (smulL (1:ℚ) (phiZ.on_basis a)) =
      [(a - 1, 1)] := by
    rw [hsm]
    show addL [(a, (1:ℚ))] (smulL (-1) [(a, 1), (a - 1, -1)]) = [(a - 1, 1)]
    have hsm2 : smulL ((-1:ℚ)) [(a, (1:ℚ)), (a - 1, -1)] =
        [(a, -1), (a - 1, 1)] := by
      simp [smulL, List.filter]
    rw [hsm2]
    show insertCoeff a 1 [(a, -1), (a - 1, 1)] = [(a - 1, 1)]
    unfold insertCoeff
    rw [if_neg (lt_irrefl a), if_neg (lt_irrefl a), if_pos (by norm_num)]
  simp only [preimageStep, phiZ, dominantItem, List.head?_cons,
    TriangularModuleMorphism.inverse_on_support, IosMode.toFun,
    if_pos rfl, eq_self_iff_true, if_true] at hsub ⊢
  rw [hsub]

theorem phiZ_loop_diverges (n : ℕ) :
    ∀ (a : ℤ) (out : List (ℤ × ℚ)),
      preimageLoop phiZ n [(a, 1)] out = Except.error MorphErr.outOfFuel := by
  induction n with
  | zero =>
    intro a out
    simp [preimageLoop]
  | succ n ih =>
    intro a out
    have hne : ([((a:ℤ), (1:ℚ))] : List (ℤ × ℚ)) ≠ [] := by simp
    simp only [preimageLoop, if_neg hne, phiZ_step a out]
    exact ih (a - 1) (addL out (single a 1))

/-- C7 (counterexample).  The termination statement of the claim is false
as stated: `phiZ` is a triangular morphism over the locally finite order
`ℤ` satisfying the triangularity invariant, yet on the single-term
codomain element `B[0]` the elimination loop of `preimage` never
terminates — the dominant index descends forever, so every fuel is
exhausted. -/
theorem preimage_locallyFinite_nontermination :
    IsTriangular phiZ ∧
      ¬ ∃ n : ℕ, preimage phiZ n [((0:ℤ), (1:ℚ))] ≠
          Except.error MorphErr.outOfFuel := by
  refine ⟨phiZ_isTriangular, ?_⟩
  rintro ⟨n, hn⟩
  apply hn
  unfold preimage
  rw [if_pos (by decide)]
  exact phiZ_loop_diverges n 0 []

theorem phiW_isTriangular : IsTriangular phiW := by
  refine ⟨?_, ?_, ?_, ?_⟩
  · intro i
    cases i with
    | zero => decide
    | succ n =>
      constructor
      · refine List.pairwise_cons.mpr ⟨?_, List.pairwise_singleton _ _⟩
        intro q hq
        simp only [List.mem_singleton] at hq
        subst hq
        show n < n + 1
        omega
      · intro p hp
        simp only [phiW, List.mem_cons, List.not_mem_nil, or_false] at hp
        rcases hp with rfl | rfl
        · norm_num
        · norm_num
  · intro i
    cases i <;> simp [phiW]
  · intro i j c h
    cases i with
    | zero =>
      simp only [phiW, dominantItem, List.head?_cons, Option.some.injEq] at h
      have hj : j = 0 := by
        have := congrArg Prod.fst h
        simpa using this.symm
      subst hj
      rfl
    | succ n =>
      simp only [phiW, dominantItem, List.head?_cons, Option.some.injEq] at h
      have hj : j = n + 1 := by
        have := congrArg Prod.fst h
        simpa using this.symm
      subst hj
      rfl
  · intro _ i j c h
    cases i with
    | zero =>
      simp only [phiW, dominantItem, List.head?_cons, Option.some.injEq] at h
      have := congrArg Prod.snd h
      simpa using this.symm
    | succ n =>
      simp only [phiW, dominantItem, List.head?_cons, Option.some.injEq] at h
      have := congrArg Prod.snd h
      simpa using this.symm

/-- Witness for C1: the round trip at `phiW` and `x = 3·B[2] + 5·B[0]`. -/
theorem preimage_roundTrip_witness :
    preimage phiW 2 (applyL phiW [((2:ℕ), (3:ℚ)), (0, 5)]) =
      Except.ok [(2, 3), (0, 5)] :=
  preimage_roundTrip phiW phiW_isTriangular (fun _ _ _ => rfl)
    [(2, 3), (0, 5)] (by decide)

/-- Witness for C3: `coreduced (phiW x)` vanishes at
`x = 3·B[2] + 5·B[0]`. -/
theorem coreduced_applyL_eq_zero_witness :
    coreduced phiW 2 (applyL phiW [((2:ℕ), (3:ℚ)), (0, 5)]) =
      Except.ok [] :=
  coreduced_applyL_eq_zero phiW phiW_isTriangular (fun _ _ _ => rfl)
    (Or.inl rfl) [(2, 3), (0, 5)] (by decide)

/-- Witness for C7 (amended): termination of `preimage` at `phiW`
(well-founded descent over `ℕ`) on `B[3]`. -/
theorem preimage_descent_terminates_witness :
    ∃ n, preimage phiW n [((3:ℕ), (1:ℚ))] ≠
      Except.error MorphErr.outOfFuel :=
  (preimage_descent_terminates phiW phiW_isTriangular
    (show WellFounded fun a b : ℕ => DLT Tri.upper a b from
      wellFounded_lt)).2 [(3, 1)] (by decide)

/-- C5.  The concrete non-surjective shift scenario: `preimage(B[1])`
fails with the not-in-image error, `preimage(B[2] + B[3]) = B[1] - B[3]`,
and `cokernel_basis_indices() == [1, 5]`. -/
theorem shift_scenario :
    preimage phi5 10 [((1:ℤ), (1:ℚ))] = Except.error MorphErr.notInImage ∧
      preimage phi5 10 [((3:ℤ), (1:ℚ)), (2, 1)] =
        Except.ok [(3, -1), (1, 1)] ∧
      cokernel_basis_indices phi5 = Except.ok [1, 5] := by
  refine ⟨rfl, ?_, rfl⟩
  norm_num [preimage, preimageLoop, preimageStep, phi5, dominantItem,
    TriangularModuleMorphism.inverse_on_support, IosMode.toFun, subL, addL,
    smulL, insertCoeff, single, coeff, List.filter, List.all,
    List.getLast?, List.getLast]
  simp

theorem phi5_on_basis_canon : ∀ i : ℤ, Canon (phi5.on_basis i) := by
  intro i
  show Canon (if i = 1 then [((5:ℤ), (1:ℚ)), (4, 1), (3, 1), (2, 1)]
    else if i = 2 then [(5, 1), (4, 1), (3, 1)]
    else if i = 3 then [(5, 1), (4, 1)]
    else [])
  split_ifs <;> decide

theorem phi5_on_basis_cod :
    ∀ i : ℤ, ∀ p ∈ phi5.on_basis i, phi5.codMem p.1 = true := by
  intro i
  show ∀ p ∈ (if i = 1 then [((5:ℤ), (1:ℚ)), (4, 1), (3, 1), (2, 1)]
    else if i = 2 then [(5, 1), (4, 1), (3, 1)]
    else if i = 3 then [(5, 1), (4, 1)]
    else []), phi5.codMem p.1 = true
  split_ifs <;> decide

/-- Witness for C8: `coreduced phi5 10 (B[4]) = -B[5]`, whose support
index `5` has no `inverse_on_support` preimage. -/
theorem coreduced_support_none_witness :
    TriangularModuleMorphism.inverse_on_support phi5 5 = none :=
  coreduced_support_none phi5 (Or.inr rfl) 10 [(4, 1)] [(5, -1)]
    (by norm_num [coreduced, coreducedLoop, coreducedStep, phi5,
      dominantItem, TriangularModuleMorphism.inverse_on_support,
      IosMode.toFun, subL, addL, smulL, insertCoeff, single, coeff,
      List.filter, List.all, List.getLast?, List.getLast])
    5 (by decide)

/-- Witness for C4: coreducing the coreduction `-B[5]` of `B[4]` returns
it unchanged. -/
theorem coreduced_idem_witness :
    coreduced phi5 1 [((5:ℤ), (-1:ℚ))] = Except.ok [(5, -1)] :=
  coreduced_idem phi5 phi5_on_basis_canon phi5_on_basis_cod 10
    [(4, 1)] [(5, -1)] (by decide)
    (by norm_num [coreduced, coreducedLoop, coreducedStep, phi5,
      dominantItem, TriangularModuleMorphism.inverse_on_support,
      IosMode.toFun, subL, addL, smulL, insertCoeff, single, coeff,
      List.filter, List.all, List.getLast?, List.getLast])

/-- C2 (evaluating the code at the failing input).  For the invertible
morphism `phiZt` with a non-trivial `inverse_on_support`, the triangular
section built by `section()` carries the constant-`None`
`inverse_on_support` coming from the missing `return` in `retract_dom`
(lines 725-726), instead of the retraction intended by the spec — the
dominant index of `on_basis(i)` — whose values at `1, 2, 3` are
`3, 1, 2`. -/
theorem sectionMap_retract_bug :
    ((sectionMap phiZt 5).inverse_on_support 1 = none ∧
      (sectionMap phiZt 5).inverse_on_support 2 = none ∧
      (sectionMap phiZt 5).inverse_on_support 3 = none) ∧
    (retractDomIntended phiZt 1 = some 3 ∧
      retractDomIntended phiZt 2 = some 1 ∧
      retractDomIntended phiZt 3 = some 2) := by
  decide

end TriangularModuleMorphism

end MWB
